import Mathlib

/-!
Verification of the spatial-query core of `boxtree/area_query.py`.

The source is a family of data-parallel kernels over a linearised 2^d-tree:
a guided-descent guiding-box finder (`GUIDING_BOX_FINDER_MACRO`), a peer-list
finder (`PEER_LIST_FINDER_TEMPLATE`), an area-query walker
(`AREA_QUERY_WALKER_BODY` with the `leaf_found_op` of `AREA_QUERY_TEMPLATE`),
a leaves-to-balls transpose (`LeavesToBallsLookupBuilder`) and a
space-invader query (`SPACE_INVADER_QUERY_TEMPLATE`).

The embedding below works in exact rational arithmetic.  The source's
stackful tree walks (explicit stack of depth `max_levels`) are embedded as
structural recursions whose recursion depth equals the source's stack depth;
the `fuel` parameter plays the role of the statically bounded stack
(`max_levels`), and exhausting it corresponds to the source's stack-overflow
precondition violation.  Helper kernels that live in `boxtree/traversal.py`
and `boxtree/tools.py` (outside the sources at hand) are modelled from the
spec and marked as such in their doc comments.
-/

/-- The linearised 2^d-tree interface used by the kernels (spec section 3,
DATA MODEL; a read-only external input).  `box_child_ids morton box = 0`
means "no such child" (box 0 is the root and is never anyone's child).
`box_has_children b` is the `BOX_HAS_CHILDREN` bit of `box_flags[b]`. -/
structure BoxTree where
  dim : ℕ
  nboxes : ℕ
  nlevels : ℕ
  root_extent : ℚ
  bbox_min : ℕ → ℚ
  box_centers : ℕ → ℕ → ℚ
  box_levels : ℕ → ℕ
  box_has_children : ℕ → Bool
  box_child_ids : ℕ → ℕ → ℕ

/-- A query ball: an L∞ (Chebyshev) ball given by a center and a radius. -/
structure Ball where
  center : ℕ → ℚ
  radius : ℚ

/-- Modelled from the spec: the `LEVEL_TO_RAD` macro of
`boxtree/traversal.py` (not among the sources); spec section 3:
`level_to_rad(L) = root_extent / 2^(L+1)`, half the side length of a box at
level `L`. -/
def level_to_rad (root_extent : ℚ) (level : ℕ) : ℚ :=
  root_extent / 2 ^ (level + 1)

/-- Modelled from the spec: `is_adjacent_or_overlapping` of
`boxtree/traversal.py` (not among the sources); spec section 4.1: with
half-sizes `h1 = level_to_rad(L1)`, `h2 = level_to_rad(L2)` the two boxes are
adjacent-or-overlapping iff for every axis `|c1[a] - c2[a]| ≤ h1 + h2`
(exact arithmetic, edge-touching counts).  The `targets_have_extent` /
`sources_have_extent` flags are fixed to false by the peer-list finder and do
not alter the predicate. -/
def is_adjacent_or_overlapping (root_extent : ℚ) (dim : ℕ)
    (c1 : ℕ → ℚ) (l1 : ℕ) (c2 : ℕ → ℚ) (l2 : ℕ) : Bool :=
  (List.range dim).all fun a =>
    decide (|c1 a - c2 a| ≤
      level_to_rad root_extent l1 + level_to_rad root_extent l2)

/-- Modelled from the spec: `check_l_infty_ball_overlap` of
`boxtree/traversal.py` (not among the sources); spec section 4.4: the ball
(cube of half-side `r`, center `c`) and the box (half-side
`hb = level_to_rad(level)`, center `cb`) overlap iff
`max_a |c[a] - cb[a]| ≤ hb + r`. -/
def check_l_infty_ball_overlap (t : BoxTree) (box : ℕ) (radius : ℚ)
    (center : ℕ → ℚ) : Bool :=
  (List.range t.dim).all fun a =>
    decide (|center a - t.box_centers box a| ≤
      level_to_rad t.root_extent (t.box_levels box) + radius)

/-- The per-axis bit extraction of `GUIDING_BOX_FINDER_MACRO`:
`bits_a = (unsigned)(((center[a] - bbox_min[a]) / root_extent) * 2^(1+L))`.
The C cast of a non-negative value to `unsigned` truncates toward zero,
i.e. takes the floor; a negative argument is undefined behaviour in the
OpenCL source and is mapped to 0 here by `Int.toNat`. -/
def axis_bits (t : BoxTree) (center : ℕ → ℚ) (a box_level : ℕ) : ℕ :=
  (⌊(center a - t.bbox_min a) / t.root_extent * 2 ^ (1 + box_level)⌋).toNat

/-- The per-level Morton number of `GUIDING_BOX_FINDER_MACRO`: the low bit
of each axis' `bits_a`, with axis 0 as the most significant bit:
`morton = OR_a (bits_a & 1) << (dim-1-a)`. -/
def level_morton_number (t : BoxTree) (center : ℕ → ℚ) (box_level : ℕ) : ℕ :=
  (List.range t.dim).foldl
    (fun acc a =>
      acc ||| (((axis_bits t center a box_level) &&& 1) <<< (t.dim - 1 - a)))
    0

/-- The descent loop of `GUIDING_BOX_FINDER_MACRO`: starting from box 0 at
level 0, stop (`break`) when the current box is a leaf or when
`level_to_rad(L)/2 < radius ≤ level_to_rad(L)`; otherwise move to
`box_child_ids[level_morton_number * aligned_nboxes + box]` and increment the
level.  The source's `for(;;)` loop is given `fuel` iterations; `none` means
the loop did not stop within `fuel` iterations. -/
def find_guiding_box_loop (t : BoxTree) (center : ℕ → ℚ) (radius : ℚ) :
    ℕ → ℕ → ℕ → Option ℕ
  | 0, _, _ => none
  | fuel + 1, box, box_level =>
    if t.box_has_children box = false
        ∨ (level_to_rad t.root_extent box_level / 2 < radius
            ∧ radius ≤ level_to_rad t.root_extent box_level) then
      some box
    else
      find_guiding_box_loop t center radius fuel
        (t.box_child_ids (level_morton_number t center box_level) box)
        (box_level + 1)

/-- `find_guiding_box` of `GUIDING_BOX_FINDER_MACRO`: box 0 is the guiding
box outright when `level_to_rad(0)/2 < radius`; otherwise run the descent
loop. -/
def find_guiding_box (t : BoxTree) (center : ℕ → ℚ) (radius : ℚ)
    (fuel : ℕ) : Option ℕ :=
  if level_to_rad t.root_extent 0 / 2 ≥ radius then
    find_guiding_box_loop t center radius fuel 0 0
  else
    some 0

/-- The inner `while (continue_walk)` loop of `AREA_QUERY_WALKER_BODY`:
a depth-first walk over the subtree strictly below `box`; at each nonzero
child, a leaf child is fed to the caller's `leaf_found_op` (`op`) and an
internal child is pushed (the recursive call).  Recursion depth equals the
source's stack depth, bounded by `fuel` (`max_levels`). -/
def walk_subtree {α : Type} (t : BoxTree) (op : ℕ → List α) :
    ℕ → ℕ → List α
  | 0, _ => []
  | fuel + 1, box =>
    (List.range (2 ^ t.dim)).flatMap fun morton =>
      let child := t.box_child_ids morton box
      if child = 0 then []
      else if t.box_has_children child = true then walk_subtree t op fuel child
      else op child

/-- Step 2 of `AREA_QUERY_WALKER_BODY`: iterate over the guiding box's peer
list; apply `leaf_found_op` to a leaf peer, walk the subtree of an internal
peer. -/
def ball_walk {α : Type} (t : BoxTree) (op : ℕ → List α) (peers : List ℕ)
    (fuel : ℕ) : List α :=
  peers.flatMap fun peer_box =>
    if t.box_has_children peer_box = true then walk_subtree t op fuel peer_box
    else op peer_box

/-- `leaf_found_op` of `AREA_QUERY_TEMPLATE`: test L∞ ball/box overlap and
append the leaf box when overlapping. -/
def aq_leaf_found_op (t : BoxTree) (b : Ball) (leaf_box_id : ℕ) : List ℕ :=
  if check_l_infty_ball_overlap t leaf_box_id b.radius b.center then
    [leaf_box_id]
  else []

/-- The full `AREA_QUERY_WALKER_BODY` for one ball: find the guiding box,
then walk its peers with `aq_leaf_found_op`, producing the emission sequence
`APPEND_leaves` (the ball's segment of `leaves_near_ball_lists`).  `none`
when the guiding-box loop does not stop within `gfuel` iterations. -/
def area_query_ball (t : BoxTree) (peers_of : ℕ → List ℕ) (b : Ball)
    (gfuel wfuel : ℕ) : Option (List ℕ) :=
  match find_guiding_box t b.center b.radius gfuel with
  | none => none
  | some guiding_box =>
    some (ball_walk t (aq_leaf_found_op t b) (peers_of guiding_box) wfuel)

/-- The `must_be_peer` check of `PEER_LIST_FINDER_TEMPLATE`: true iff no
existing child of `child_box` (living on `walk_level + 2`) is adjacent to or
overlapping the target box. -/
def must_be_peer (t : BoxTree) (center : ℕ → ℚ) (level : ℕ)
    (child_box : ℕ) (walk_level : ℕ) : Bool :=
  (List.range (2 ^ t.dim)).all fun morton =>
    let next_child := t.box_child_ids morton child_box
    decide (next_child = 0)
      || !(is_adjacent_or_overlapping t.root_extent t.dim center level
            (t.box_centers next_child) (walk_level + 2))

/-- The walk of `PEER_LIST_FINDER_TEMPLATE` (target box center `center`,
target level `level`), starting at the root: prune a non-adjacent child;
emit an adjacent child at the target's level, or a leaf, or one none of
whose children is adjacent (`must_be_peer`); otherwise descend. -/
def peer_walk (t : BoxTree) (center : ℕ → ℚ) (level : ℕ) :
    ℕ → ℕ → ℕ → List ℕ
  | 0, _, _ => []
  | fuel + 1, box, walk_level =>
    (List.range (2 ^ t.dim)).flatMap fun morton =>
      let child := t.box_child_ids morton box
      if child = 0 then []
      else if is_adjacent_or_overlapping t.root_extent t.dim center level
          (t.box_centers child) (walk_level + 1) then
        if walk_level + 1 = level then [child]
        else if t.box_has_children child = false then [child]
        else if must_be_peer t center level child walk_level then [child]
        else peer_walk t center level fuel child (walk_level + 1)
      else []

/-- The `generate` function of `PEER_LIST_FINDER_TEMPLATE` for one box:
the root's peer list is `[0]`; any other box's peer list is produced by the
walk from the root. -/
def peer_list_gen (t : BoxTree) (fuel : ℕ) (box_id : ℕ) : List ℕ :=
  if box_id = 0 then [0]
  else peer_walk t (t.box_centers box_id) (t.box_levels box_id) fuel 0 0

/-- `max_levels` as computed by the builders:
`div_ceil(tree.nlevels, 10) * 10`. -/
def max_levels (t : BoxTree) : ℕ :=
  ((t.nlevels + 10 - 1) / 10) * 10

/-- Descendant-or-self relation generated by the child table: `Desc t p q`
holds when `q` is reached from `p` by zero or more child steps. -/
inductive Desc (t : BoxTree) : ℕ → ℕ → Prop
  | refl (b : ℕ) : Desc t b b
  | step {p b : ℕ} (morton : ℕ) (hd : Desc t p b) (hm : morton < 2 ^ t.dim)
      (hc : t.box_child_ids morton b ≠ 0) : Desc t p (t.box_child_ids morton b)

/-- Well-formedness of the tree input, as assumed by the spec (sections 1
and 3): the data arrays describe a geometrically consistent 2^d-tree whose
leaf boxes tile the root box (so a box with the `HAS_CHILDREN` flag has all
`2^d` children), every box is reachable from the root, and each box has at
most one parent. -/
structure WF (t : BoxTree) : Prop where
  dim_pos : 0 < t.dim
  nboxes_pos : 0 < t.nboxes
  extent_pos : 0 < t.root_extent
  root_level : t.box_levels 0 = 0
  root_center : ∀ a < t.dim,
    t.box_centers 0 a = t.bbox_min a + t.root_extent / 2
  level_lt_nlevels : ∀ b < t.nboxes, t.box_levels b < t.nlevels
  child_id_lt : ∀ morton < 2 ^ t.dim, ∀ b < t.nboxes,
    t.box_child_ids morton b ≠ 0 → t.box_child_ids morton b < t.nboxes
  child_level : ∀ morton < 2 ^ t.dim, ∀ b < t.nboxes,
    t.box_child_ids morton b ≠ 0 →
      t.box_levels (t.box_child_ids morton b) = t.box_levels b + 1
  child_center : ∀ morton < 2 ^ t.dim, ∀ b < t.nboxes,
    t.box_child_ids morton b ≠ 0 → ∀ a < t.dim,
      t.box_centers (t.box_child_ids morton b) a =
        t.box_centers b a +
          (if (morton >>> (t.dim - 1 - a)) % 2 = 1 then
            level_to_rad t.root_extent (t.box_levels b + 1)
          else
            -level_to_rad t.root_extent (t.box_levels b + 1))
  full_children : ∀ b < t.nboxes, t.box_has_children b = true →
    ∀ morton < 2 ^ t.dim, t.box_child_ids morton b ≠ 0
  leaf_no_children : ∀ b < t.nboxes, t.box_has_children b = false →
    ∀ morton < 2 ^ t.dim, t.box_child_ids morton b = 0
  parent_unique : ∀ m < 2 ^ t.dim, ∀ b < t.nboxes, ∀ m' < 2 ^ t.dim,
    ∀ b' < t.nboxes, t.box_child_ids m b ≠ 0 →
      t.box_child_ids m b = t.box_child_ids m' b' → b = b' ∧ m = m'
  reachable : ∀ b < t.nboxes, Desc t 0 b

theorem level_to_rad_pos {E : ℚ} (hE : 0 < E) (L : ℕ) :
    0 < level_to_rad E L := by
  unfold level_to_rad
  positivity

theorem level_to_rad_succ (E : ℚ) (L : ℕ) :
    level_to_rad E (L + 1) = level_to_rad E L / 2 := by
  unfold level_to_rad
  rw [pow_succ]
  ring

theorem level_to_rad_anti {E : ℚ} (hE : 0 < E) {L L' : ℕ} (h : L ≤ L') :
    level_to_rad E L' ≤ level_to_rad E L := by
  unfold level_to_rad
  apply div_le_div_of_nonneg_left (le_of_lt hE) (by positivity)
  exact pow_le_pow_right₀ (by norm_num) (by omega)

theorem level_to_rad_scale {E : ℚ} {L L' : ℕ} (h : L ≤ L') :
    level_to_rad E L = 2 ^ (L' - L) * level_to_rad E L' := by
  have hpow : (2:ℚ) ^ (L' + 1) = 2 ^ (L' - L) * 2 ^ (L + 1) := by
    rw [← pow_add]
    congr 1
    omega
  unfold level_to_rad
  rw [eq_comm, mul_div_assoc',
    div_eq_div_iff (by positivity : ((2:ℚ) ^ (L' + 1)) ≠ 0)
      (by positivity : ((2:ℚ) ^ (L + 1)) ≠ 0),
    hpow]
  ring

namespace Desc

theorem trans {t : BoxTree} {p q r : ℕ} (h1 : Desc t p q) (h2 : Desc t q r) :
    Desc t p r := by
  induction h2 with
  | refl => exact h1
  | step morton hd hm hc ih => exact Desc.step morton ih hm hc

end Desc

theorem desc_lt_nboxes {t : BoxTree} (hw : WF t) {p q : ℕ}
    (hp : p < t.nboxes) (h : Desc t p q) : q < t.nboxes := by
  induction h with
  | refl => exact hp
  | step morton hd hm hc ih => exact hw.child_id_lt _ hm _ ih hc

theorem desc_level_le {t : BoxTree} (hw : WF t) {p q : ℕ}
    (hp : p < t.nboxes) (h : Desc t p q) : t.box_levels p ≤ t.box_levels q := by
  induction h with
  | refl => exact le_refl _
  | step morton hd hm hc ih =>
    have hb := desc_lt_nboxes hw hp hd
    rw [hw.child_level _ hm _ hb hc]
    omega

theorem desc_level_lt {t : BoxTree} (hw : WF t) {p q : ℕ}
    (hp : p < t.nboxes) (h : Desc t p q) (hne : p ≠ q) :
    t.box_levels p < t.box_levels q := by
  induction h with
  | refl => exact absurd rfl hne
  | step morton hd hm hc ih =>
    have hb := desc_lt_nboxes hw hp hd
    have h1 := desc_level_le hw hp hd
    rw [hw.child_level _ hm _ hb hc]
    omega

theorem desc_of_level_eq {t : BoxTree} (hw : WF t) {p q : ℕ}
    (hp : p < t.nboxes) (h : Desc t p q)
    (hl : t.box_levels p = t.box_levels q) : p = q := by
  by_contra hne
  exact absurd hl (Nat.ne_of_lt (desc_level_lt hw hp h hne))

theorem desc_cases {t : BoxTree} {x q : ℕ} (h : Desc t x q) :
    x = q ∨ ∃ m b, m < 2 ^ t.dim ∧ Desc t x b ∧ t.box_child_ids m b ≠ 0 ∧
      t.box_child_ids m b = q := by
  cases h with
  | refl => exact Or.inl rfl
  | step morton hd hm hc => exact Or.inr ⟨morton, _, hm, hd, hc, rfl⟩

theorem desc_head {t : BoxTree} {p q : ℕ} (h : Desc t p q) :
    p ≠ q → ∃ m, m < 2 ^ t.dim ∧ t.box_child_ids m p ≠ 0 ∧
      Desc t (t.box_child_ids m p) q := by
  induction h with
  | refl => exact fun hne => absurd rfl hne
  | step morton hd hm hc ih =>
    rename_i b
    intro hne
    by_cases hpb : p = b
    · subst hpb
      exact ⟨morton, hm, hc, Desc.refl _⟩
    · obtain ⟨m, h1, h2, h3⟩ := ih hpb
      exact ⟨m, h1, h2, Desc.step morton h3 hm hc⟩

theorem desc_total {t : BoxTree} (hw : WF t) {y q : ℕ} (hy : y < t.nboxes)
    (h2 : Desc t y q) :
    ∀ x, x < t.nboxes → Desc t x q → Desc t x y ∨ Desc t y x := by
  induction h2 with
  | refl => exact fun x _ h1 => Or.inl h1
  | step morton hd hm hc ih =>
    rename_i b
    intro x hx h1
    rcases desc_cases h1 with heq | ⟨m2, b2, hm2, hd2, hc2, he2⟩
    · exact Or.inr (heq ▸ Desc.step morton hd hm hc)
    · have hb2 : b2 < t.nboxes := desc_lt_nboxes hw hx hd2
      have hb : b < t.nboxes := desc_lt_nboxes hw hy hd
      obtain ⟨hbe, _⟩ := hw.parent_unique m2 hm2 b2 hb2 morton hm b hb hc2 he2
      exact ih x hx (hbe ▸ hd2)

theorem desc_anc_at_level {t : BoxTree} (hw : WF t) {p q : ℕ}
    (hp : p < t.nboxes) (h : Desc t p q) (j : ℕ) (h1 : t.box_levels p ≤ j) :
    j ≤ t.box_levels q →
      ∃ z, Desc t p z ∧ Desc t z q ∧ t.box_levels z = j := by
  induction h with
  | refl => exact fun h2 => ⟨p, Desc.refl p, Desc.refl p, le_antisymm h1 h2⟩
  | step morton hd hm hc ih =>
    rename_i b
    intro h2
    have hb : b < t.nboxes := desc_lt_nboxes hw hp hd
    rw [hw.child_level _ hm _ hb hc] at h2
    rcases Nat.lt_or_ge (t.box_levels b) j with hj | hj
    · refine ⟨_, Desc.step morton hd hm hc, Desc.refl _, ?_⟩
      rw [hw.child_level _ hm _ hb hc]
      omega
    · obtain ⟨z, h3, h4, h5⟩ := ih hj
      exact ⟨z, h3, Desc.step morton h4 hm hc, h5⟩

theorem child_center_dist {t : BoxTree} (hw : WF t) {morton b : ℕ}
    (hm : morton < 2 ^ t.dim) (hb : b < t.nboxes)
    (hc : t.box_child_ids morton b ≠ 0) {a : ℕ} (ha : a < t.dim) :
    |t.box_centers (t.box_child_ids morton b) a - t.box_centers b a| =
      level_to_rad t.root_extent (t.box_levels b + 1) := by
  rw [hw.child_center _ hm _ hb hc a ha]
  have hrad : 0 < level_to_rad t.root_extent (t.box_levels b + 1) :=
    level_to_rad_pos hw.extent_pos _
  rcases ite_eq_or_eq ((morton >>> (t.dim - 1 - a)) % 2 = 1)
      (level_to_rad t.root_extent (t.box_levels b + 1))
      (-level_to_rad t.root_extent (t.box_levels b + 1)) with he | he <;>
    rw [he] <;> rw [add_sub_cancel_left] <;>
    simp [abs_of_pos, abs_of_neg, hrad, neg_pos, le_of_lt hrad,
      abs_of_nonneg]

theorem desc_center_dist {t : BoxTree} (hw : WF t) {p q : ℕ}
    (hp : p < t.nboxes) (h : Desc t p q) :
    ∀ a < t.dim, |t.box_centers q a - t.box_centers p a| ≤
      level_to_rad t.root_extent (t.box_levels p) -
        level_to_rad t.root_extent (t.box_levels q) := by
  induction h with
  | refl => intro a _; simp
  | step morton hd hm hc ih =>
    rename_i b
    intro a ha
    have hb : b < t.nboxes := desc_lt_nboxes hw hp hd
    have h1 := ih a ha
    have h2 := child_center_dist hw hm hb hc ha
    have h3 := hw.child_level _ hm _ hb hc
    have h4 : level_to_rad t.root_extent (t.box_levels b + 1) =
        level_to_rad t.root_extent (t.box_levels b) / 2 := level_to_rad_succ _ _
    calc |t.box_centers (t.box_child_ids morton b) a - t.box_centers p a|
        ≤ |t.box_centers (t.box_child_ids morton b) a - t.box_centers b a| +
            |t.box_centers b a - t.box_centers p a| := abs_sub_le _ _ _
      _ ≤ level_to_rad t.root_extent (t.box_levels p) -
            level_to_rad t.root_extent (t.box_levels (t.box_child_ids morton b)) := by
          rw [h2, h3]
          linarith

theorem desc_grid {t : BoxTree} (hw : WF t) {q : ℕ} (h : Desc t 0 q) :
    ∀ a < t.dim, ∃ k : ℕ, t.box_centers q a =
      t.bbox_min a + (2 * k + 1) * level_to_rad t.root_extent (t.box_levels q) := by
  induction h with
  | refl =>
    intro a ha
    refine ⟨0, ?_⟩
    rw [hw.root_center a ha, hw.root_level]
    unfold level_to_rad
    norm_num
  | step morton hd hm hc ih =>
    rename_i b
    intro a ha
    have hb : b < t.nboxes := desc_lt_nboxes hw hw.nboxes_pos hd
    obtain ⟨k, hk⟩ := ih a ha
    have h2 := hw.child_center _ hm _ hb hc a ha
    have h3 := hw.child_level _ hm _ hb hc
    have h4 : level_to_rad t.root_extent (t.box_levels b) =
        2 * level_to_rad t.root_extent (t.box_levels b + 1) := by
      rw [level_to_rad_succ]
      ring
    rcases ite_eq_or_eq ((morton >>> (t.dim - 1 - a)) % 2 = 1)
        (level_to_rad t.root_extent (t.box_levels b + 1))
        (-level_to_rad t.root_extent (t.box_levels b + 1)) with he | he
    · refine ⟨2 * k + 1, ?_⟩
      rw [h2, he, hk, h3, h4]
      push_cast
      ring
    · refine ⟨2 * k, ?_⟩
      rw [h2, he, hk, h3, h4]
      push_cast
      ring

theorem shiftLeft_bit_testBit {g : ℕ} (p k : ℕ) (hg : g ≤ 1) :
    (g <<< p).testBit k = (decide (p = k) && decide (g = 1)) := by
  rw [Nat.testBit_shiftLeft]
  interval_cases g
  · simp
  · by_cases hpk : p = k
    · subst hpk
      simp [Nat.testBit]
    · simp only [hpk, decide_eq_false_iff_not, Bool.false_and]
      rcases Nat.lt_or_ge k p with h | h
      · simp [Nat.not_le.mpr h, hpk]
      · have h2 : k - p ≠ 0 := by omega
        rcases Nat.exists_eq_succ_of_ne_zero h2 with ⟨j, hj⟩
        simp only [ge_iff_le, h, hj, decide_eq_true_eq]
        simp [Nat.testBit_succ, hpk]

theorem foldl_or_testBit (d : ℕ) (g : ℕ → ℕ) (hg : ∀ a, g a ≤ 1)
    (l : List ℕ) : ∀ (acc k : ℕ),
      (l.foldl (fun acc a => acc ||| (g a <<< (d - 1 - a))) acc).testBit k =
        (acc.testBit k ||
          l.any fun a => decide (d - 1 - a = k) && decide (g a = 1)) := by
  induction l with
  | nil => simp
  | cons a as ih =>
    intro acc k
    rw [List.foldl_cons, ih, List.any_cons, Nat.testBit_or,
      shiftLeft_bit_testBit _ _ (hg a), Bool.or_assoc]

theorem foldl_or_lt (n : ℕ) (g : ℕ → ℕ) (upd : ℕ → ℕ)
    (h : ∀ a, g a <<< (upd a) < 2 ^ n) (l : List ℕ) :
    ∀ acc, acc < 2 ^ n →
      l.foldl (fun acc a => acc ||| (g a <<< (upd a))) acc < 2 ^ n := by
  induction l with
  | nil => exact fun acc h2 => h2
  | cons a as ih =>
    intro acc h2
    rw [List.foldl_cons]
    exact ih _ (Nat.or_lt_two_pow h2 (h a))

theorem level_morton_number_lt (t : BoxTree) (c : ℕ → ℚ) (L : ℕ)
    (hd : 0 < t.dim) : level_morton_number t c L < 2 ^ t.dim := by
  unfold level_morton_number
  apply foldl_or_lt
  · intro a
    have h1 : axis_bits t c a L &&& 1 ≤ 1 := by
      rw [Nat.and_one_is_mod]
      omega
    calc (axis_bits t c a L &&& 1) <<< (t.dim - 1 - a)
        = (axis_bits t c a L &&& 1) * 2 ^ (t.dim - 1 - a) := by
          rw [Nat.shiftLeft_eq]
      _ ≤ 1 * 2 ^ (t.dim - 1 - a) := by
          exact Nat.mul_le_mul_right _ h1
      _ < 2 ^ t.dim := by
          rw [one_mul]
          exact Nat.pow_lt_pow_right (by norm_num) (by omega)
  · positivity

theorem level_morton_number_testBit_iff {t : BoxTree} (c : ℕ → ℚ) (L : ℕ)
    {a : ℕ} (ha : a < t.dim) :
    ((level_morton_number t c L).testBit (t.dim - 1 - a) = true) ↔
      axis_bits t c a L % 2 = 1 := by
  unfold level_morton_number
  rw [foldl_or_testBit _ _ (fun a2 => by rw [Nat.and_one_is_mod]; omega)]
  simp only [Nat.zero_testBit, Bool.false_or, List.any_eq_true, List.mem_range,
    Bool.and_eq_true, decide_eq_true_eq, Nat.and_one_is_mod]
  constructor
  · rintro ⟨a2, ha2, he, hb⟩
    have haa : a2 = a := by omega
    exact haa ▸ hb
  · intro hb
    exact ⟨a, ha, rfl, hb⟩

theorem level_morton_number_bit {t : BoxTree} (c : ℕ → ℚ) (L : ℕ)
    {a : ℕ} (ha : a < t.dim) :
    (level_morton_number t c L >>> (t.dim - 1 - a)) % 2 =
      axis_bits t c a L % 2 := by
  have h1 := level_morton_number_testBit_iff (t := t) c L ha
  rw [Nat.testBit_to_div_mod] at h1
  rw [Nat.shiftRight_eq_div_pow]
  simp only [decide_eq_true_eq] at h1
  omega

/-- A point lies in the half-open cube of box `b` (closed on the low side,
open on the high side of each axis). -/
def in_box_half_open (t : BoxTree) (b : ℕ) (x : ℕ → ℚ) : Prop :=
  ∀ a < t.dim,
    t.box_centers b a - level_to_rad t.root_extent (t.box_levels b) ≤ x a ∧
      x a < t.box_centers b a + level_to_rad t.root_extent (t.box_levels b)

/-- A point lies in the half-open root box `[bbox_min, bbox_min + extent)`. -/
def in_root_box (t : BoxTree) (x : ℕ → ℚ) : Prop :=
  ∀ a < t.dim, t.bbox_min a ≤ x a ∧ x a < t.bbox_min a + t.root_extent

theorem in_root_box_iff {t : BoxTree} (hw : WF t) (x : ℕ → ℚ) :
    in_root_box t x ↔ in_box_half_open t 0 x := by
  unfold in_root_box in_box_half_open
  apply forall_congr'
  intro a
  apply imp_congr_right
  intro ha
  rw [hw.root_center a ha, hw.root_level]
  have h0 : level_to_rad t.root_extent 0 = t.root_extent / 2 := by
    unfold level_to_rad
    norm_num
  rw [h0]
  constructor <;> intro ⟨h1, h2⟩ <;> constructor <;> linarith

theorem axis_bits_parity {t : BoxTree} (hw : WF t) {b : ℕ}
    (hroot : Desc t 0 b) {x : ℕ → ℚ} (hx : in_box_half_open t b x)
    {a : ℕ} (ha : a < t.dim) :
    (axis_bits t x a (t.box_levels b) % 2 = 1 ↔ t.box_centers b a ≤ x a) := by
  obtain ⟨k, hk⟩ := desc_grid hw hroot a ha
  obtain ⟨hlo, hhi⟩ := hx a ha
  set L := t.box_levels b with hL
  set rad := level_to_rad t.root_extent L with hrad
  have hradpos : 0 < rad := level_to_rad_pos hw.extent_pos L
  have hE : (0:ℚ) < t.root_extent := hw.extent_pos
  have hval : (x a - t.bbox_min a) / t.root_extent * 2 ^ (1 + L) =
      (x a - t.bbox_min a) / rad := by
    rw [hrad]
    unfold level_to_rad
    rw [div_div_eq_mul_div, add_comm 1 L]
    ring
  have hfloor : axis_bits t x a L =
      (⌊(x a - t.bbox_min a) / rad⌋).toNat := by
    unfold axis_bits
    rw [hval]
  rcases le_or_lt (t.box_centers b a) (x a) with hside | hside
  · -- upper half: floor is 2k+1
    have h1 : (2 * (k:ℚ) + 1) ≤ (x a - t.bbox_min a) / rad := by
      rw [le_div_iff₀ hradpos]
      have : t.box_centers b a - t.bbox_min a = (2 * (k:ℚ) + 1) * rad := by
        rw [hk]; ring
      linarith
    have h2 : (x a - t.bbox_min a) / rad < 2 * (k:ℚ) + 2 := by
      rw [div_lt_iff₀ hradpos]
      have : t.box_centers b a - t.bbox_min a = (2 * (k:ℚ) + 1) * rad := by
        rw [hk]; ring
      linarith
    have hf : ⌊(x a - t.bbox_min a) / rad⌋ = 2 * (k:ℤ) + 1 := by
      apply Int.floor_eq_iff.mpr
      constructor <;> push_cast <;> linarith
    rw [hfloor, hf]
    constructor
    · intro _
      exact hside
    · intro _
      omega
  · -- lower half: floor is 2k
    have h1 : (2 * (k:ℚ)) ≤ (x a - t.bbox_min a) / rad := by
      rw [le_div_iff₀ hradpos]
      have : t.box_centers b a - t.bbox_min a = (2 * (k:ℚ) + 1) * rad := by
        rw [hk]; ring
      linarith
    have h2 : (x a - t.bbox_min a) / rad < 2 * (k:ℚ) + 1 := by
      rw [div_lt_iff₀ hradpos]
      have : t.box_centers b a - t.bbox_min a = (2 * (k:ℚ) + 1) * rad := by
        rw [hk]; ring
      linarith
    have hf : ⌊(x a - t.bbox_min a) / rad⌋ = 2 * (k:ℤ) := by
      apply Int.floor_eq_iff.mpr
      constructor <;> push_cast <;> linarith
    rw [hfloor, hf]
    constructor
    · intro hcon
      omega
    · intro hcon
      exact absurd hcon (not_le.mpr hside)

theorem morton_child_contains {t : BoxTree} (hw : WF t) {b : ℕ}
    (hb : b < t.nboxes) (hroot : Desc t 0 b) {x : ℕ → ℚ}
    (hx : in_box_half_open t b x) (hch : t.box_has_children b = true) :
    t.box_child_ids (level_morton_number t x (t.box_levels b)) b ≠ 0 ∧
      in_box_half_open t
        (t.box_child_ids (level_morton_number t x (t.box_levels b)) b) x := by
  have hm : level_morton_number t x (t.box_levels b) < 2 ^ t.dim :=
    level_morton_number_lt t x _ hw.dim_pos
  have hne := hw.full_children b hb hch _ hm
  refine ⟨hne, ?_⟩
  intro a ha
  have hcc := hw.child_center _ hm _ hb hne a ha
  have hlv := hw.child_level _ hm _ hb hne
  have hbit := level_morton_number_bit (t := t) x (t.box_levels b) ha
  have hiff := axis_bits_parity hw hroot hx ha
  obtain ⟨hlo, hhi⟩ := hx a ha
  have hsucc : level_to_rad t.root_extent (t.box_levels b + 1) =
      level_to_rad t.root_extent (t.box_levels b) / 2 := level_to_rad_succ _ _
  rw [hcc, hlv, hsucc]
  by_cases hside : t.box_centers b a ≤ x a
  · have hb2 : (level_morton_number t x (t.box_levels b) >>>
        (t.dim - 1 - a)) % 2 = 1 := by
      rw [hbit]
      exact hiff.mpr hside
    rw [if_pos hb2]
    constructor <;> linarith
  · have hb2 : ¬((level_morton_number t x (t.box_levels b) >>>
        (t.dim - 1 - a)) % 2 = 1) := by
      rw [hbit]
      exact fun hc => hside (hiff.mp hc)
    rw [if_neg hb2]
    push_neg at hside
    constructor <;> linarith

/-- The box visited by the guiding-box descent loop at the start of
iteration `i`: `guiding_seq 0 = 0` (the root), and each iteration moves to
`box_child_ids[level_morton_number * aligned_nboxes + box]` (which is box 0
again when there is no such child). -/
def guiding_seq (t : BoxTree) (center : ℕ → ℚ) : ℕ → ℕ
  | 0 => 0
  | i + 1 =>
    t.box_child_ids (level_morton_number t center i) (guiding_seq t center i)

/-- The `break` condition of the guiding-box descent loop at level `i`:
the current box is a leaf, or `level_to_rad(i)/2 < radius ≤ level_to_rad(i)`. -/
def guiding_stop (t : BoxTree) (radius : ℚ) (box : ℕ) (i : ℕ) : Prop :=
  t.box_has_children box = false ∨
    (level_to_rad t.root_extent i / 2 < radius ∧
      radius ≤ level_to_rad t.root_extent i)

instance (t : BoxTree) (radius : ℚ) (box i : ℕ) :
    Decidable (guiding_stop t radius box i) := by
  unfold guiding_stop
  infer_instance

theorem find_guiding_box_loop_unfold (t : BoxTree) (center : ℕ → ℚ)
    (radius : ℚ) (fuel box box_level : ℕ) :
    find_guiding_box_loop t center radius (fuel + 1) box box_level =
      if guiding_stop t radius box box_level then some box
      else
        find_guiding_box_loop t center radius fuel
          (t.box_child_ids (level_morton_number t center box_level) box)
          (box_level + 1) := by
  rfl

theorem loop_eq_of_stop {t : BoxTree} {center : ℕ → ℚ} {radius : ℚ} {s : ℕ}
    (hstop : guiding_stop t radius (guiding_seq t center s) s)
    (hmin : ∀ j < s, ¬guiding_stop t radius (guiding_seq t center j) j) :
    ∀ fuel i, i ≤ s → s < fuel + i →
      find_guiding_box_loop t center radius fuel (guiding_seq t center i) i =
        some (guiding_seq t center s) := by
  intro fuel
  induction fuel with
  | zero =>
    intro i h1 h2
    omega
  | succ fuel ih =>
    intro i h1 h2
    rw [find_guiding_box_loop_unfold]
    by_cases hi : i = s
    · subst hi
      rw [if_pos hstop]
    · have hlt : i < s := by omega
      rw [if_neg (hmin i hlt)]
      have h3 := ih (i + 1) (by omega) (by omega)
      rw [← h3]
      rfl

theorem exists_guiding_level {E radius : ℚ} (hr : 0 < radius) :
    ∃ L, level_to_rad E L / 2 < radius := by
  rcases le_or_lt E 0 with hE | hE
  · refine ⟨0, ?_⟩
    have : level_to_rad E 0 ≤ 0 := by
      unfold level_to_rad
      apply div_nonpos_of_nonpos_of_nonneg hE
      norm_num
    linarith
  · obtain ⟨n, hn⟩ := pow_unbounded_of_one_lt (E / radius) (by norm_num : (1:ℚ) < 2)
    refine ⟨n, ?_⟩
    unfold level_to_rad
    rw [div_div]
    rw [div_lt_iff₀ (by positivity)]
    rw [div_lt_iff₀ hr] at hn
    have h2 : (2:ℚ) ^ n ≤ 2 ^ (n + 1) * 2 :=
      le_of_lt (by
        have : (2:ℚ) ^ n < 2 ^ (n + 1) :=
          pow_lt_pow_right₀ (by norm_num) (by omega)
        have h3 : (0:ℚ) < 2 ^ (n + 1) := by positivity
        nlinarith)
    have h4 : (2:ℚ) ^ n * radius ≤ 2 ^ (n + 1) * 2 * radius :=
      mul_le_mul_of_nonneg_right h2 (le_of_lt hr)
    have h5 : radius * (2 ^ (n + 1) * 2) = 2 ^ (n + 1) * 2 * radius := by ring
    linarith

theorem guiding_descent_exists_stop {t : BoxTree} {center : ℕ → ℚ}
    {radius : ℚ} (hr : 0 < radius)
    (hroot : radius ≤ level_to_rad t.root_extent 0 / 2) :
    ∃ s, guiding_stop t radius (guiding_seq t center s) s ∧
      (∀ j < s, ¬guiding_stop t radius (guiding_seq t center j) j) ∧
      radius ≤ level_to_rad t.root_extent s ∧
      (∀ L2, level_to_rad t.root_extent L2 / 2 < radius → s ≤ L2) := by
  have hexQ : ∃ L, level_to_rad t.root_extent L / 2 < radius :=
    exists_guiding_level hr
  have hQM : level_to_rad t.root_extent (Nat.find hexQ) / 2 < radius :=
    Nat.find_spec hexQ
  have hMmin : ∀ j < Nat.find hexQ,
      ¬(level_to_rad t.root_extent j / 2 < radius) :=
    fun j hj => Nat.find_min hexQ hj
  have hrad : ∀ j, j ≤ Nat.find hexQ → radius ≤ level_to_rad t.root_extent j := by
    intro j
    induction j with
    | zero =>
      intro _
      linarith
    | succ j ih =>
      intro hj
      have h1 := ih (by omega)
      have h2 := hMmin j (by omega)
      push_neg at h2
      rw [level_to_rad_succ]
      linarith
  have hstopM : guiding_stop t radius
      (guiding_seq t center (Nat.find hexQ)) (Nat.find hexQ) :=
    Or.inr ⟨hQM, hrad _ le_rfl⟩
  have hexS : ∃ s, guiding_stop t radius (guiding_seq t center s) s :=
    ⟨Nat.find hexQ, hstopM⟩
  refine ⟨Nat.find hexS, Nat.find_spec hexS,
    fun j hj => Nat.find_min hexS hj, hrad _ (Nat.find_le hstopM), ?_⟩
  intro L2 hL2
  exact le_trans (Nat.find_le hstopM) (Nat.find_le hL2)

theorem level_to_rad_strict_anti {E : ℚ} (hE : 0 < E) {j k : ℕ} (h : j < k) :
    level_to_rad E k < level_to_rad E j := by
  unfold level_to_rad
  apply div_lt_div_of_pos_left hE (by positivity)
  exact pow_lt_pow_right₀ (by norm_num) (by omega)

theorem guiding_seq_invariant {t : BoxTree} (hw : WF t) {x : ℕ → ℚ}
    (hx : in_root_box t x) :
    ∀ i, (∀ j < i, t.box_has_children (guiding_seq t x j) = true) →
      Desc t 0 (guiding_seq t x i) ∧ guiding_seq t x i < t.nboxes ∧
        t.box_levels (guiding_seq t x i) = i ∧
        in_box_half_open t (guiding_seq t x i) x := by
  intro i
  induction i with
  | zero =>
    intro _
    exact ⟨Desc.refl 0, hw.nboxes_pos, hw.root_level,
      (in_root_box_iff hw x).mp hx⟩
  | succ i ih =>
    intro hall
    obtain ⟨hdesc, hlt, hlev, hin⟩ := ih (fun j hj => hall j (by omega))
    have hch := hall i (by omega)
    have hmc := morton_child_contains hw hlt hdesc hin hch
    have hm : level_morton_number t x (t.box_levels (guiding_seq t x i)) <
        2 ^ t.dim := level_morton_number_lt t x _ hw.dim_pos
    have e1 : guiding_seq t x (i + 1) =
        t.box_child_ids
          (level_morton_number t x (t.box_levels (guiding_seq t x i)))
          (guiding_seq t x i) := by
      rw [hlev]
      rfl
    rw [e1]
    refine ⟨Desc.step _ hdesc hm hmc.1, hw.child_id_lt _ hm _ hlt hmc.1,
      ?_, hmc.2⟩
    rw [hw.child_level _ hm _ hlt hmc.1, hlev]

theorem find_guiding_box_char {t : BoxTree} (hw : WF t) {x : ℕ → ℚ}
    {radius : ℚ} (hx : in_root_box t x) (hr : 0 < radius)
    (hroot : radius ≤ level_to_rad t.root_extent 0 / 2) :
    ∃ s, (∀ fuel, s < fuel →
        find_guiding_box t x radius fuel = some (guiding_seq t x s)) ∧
      guiding_stop t radius (guiding_seq t x s) s ∧
      (∀ j < s, ¬guiding_stop t radius (guiding_seq t x j) j) ∧
      radius ≤ level_to_rad t.root_extent s ∧
      (∀ L2, level_to_rad t.root_extent L2 / 2 < radius → s ≤ L2) ∧
      Desc t 0 (guiding_seq t x s) ∧ guiding_seq t x s < t.nboxes ∧
      t.box_levels (guiding_seq t x s) = s ∧
      in_box_half_open t (guiding_seq t x s) x := by
  obtain ⟨s, h1, h2, h3, h4⟩ := guiding_descent_exists_stop hr hroot
  have hall : ∀ j < s, t.box_has_children (guiding_seq t x j) = true := by
    intro j hj
    have h4 := h2 j hj
    unfold guiding_stop at h4
    push_neg at h4
    cases hcb : t.box_has_children (guiding_seq t x j) with
    | false => exact absurd hcb h4.1
    | true => rfl
  obtain ⟨hdesc, hlt, hlev, hin⟩ := guiding_seq_invariant hw hx s hall
  refine ⟨s, ?_, h1, h2, h3, h4, hdesc, hlt, hlev, hin⟩
  intro fuel hfuel
  unfold find_guiding_box
  rw [if_pos (ge_iff_le.mpr hroot)]
  have h5 : guiding_seq t x 0 = 0 := rfl
  rw [← h5]
  exact loop_eq_of_stop h1 h2 fuel 0 (by omega) (by omega)

theorem radius_level_le {E radius : ℚ} (hE : 0 < E) {L1 L2 : ℕ}
    (hlt : level_to_rad E L1 / 2 < radius)
    (hle : radius ≤ level_to_rad E L2) : L2 ≤ L1 := by
  by_contra h
  push_neg at h
  have h3 : level_to_rad E L2 ≤ level_to_rad E (L1 + 1) :=
    level_to_rad_anti hE (by omega)
  rw [level_to_rad_succ] at h3
  linarith

theorem exists_radius_level {E radius : ℚ} (hr : 0 < radius)
    (hroot : radius ≤ level_to_rad E 0 / 2) :
    ∃ L, level_to_rad E L / 2 < radius ∧ radius ≤ level_to_rad E L := by
  have hexQ : ∃ L, level_to_rad E L / 2 < radius := exists_guiding_level hr
  have hMmin : ∀ j < Nat.find hexQ, ¬(level_to_rad E j / 2 < radius) :=
    fun j hj => Nat.find_min hexQ hj
  refine ⟨Nat.find hexQ, Nat.find_spec hexQ, ?_⟩
  have hrad : ∀ j, j ≤ Nat.find hexQ → radius ≤ level_to_rad E j := by
    intro j
    induction j with
    | zero =>
      intro _
      linarith
    | succ j ih =>
      intro hj
      have h1 := ih (by omega)
      have h2 := hMmin j (by omega)
      push_neg at h2
      rw [level_to_rad_succ]
      linarith
  exact hrad _ le_rfl

theorem find_guiding_box_eq_of_stop {t : BoxTree} {x : ℕ → ℚ} {radius : ℚ}
    {s : ℕ} (hroot : radius ≤ level_to_rad t.root_extent 0 / 2)
    (hstop : guiding_stop t radius (guiding_seq t x s) s)
    (hmin : ∀ j < s, ¬guiding_stop t radius (guiding_seq t x j) j) :
    ∀ fuel, s < fuel →
      find_guiding_box t x radius fuel = some (guiding_seq t x s) := by
  intro fuel hfuel
  unfold find_guiding_box
  rw [if_pos (ge_iff_le.mpr hroot)]
  have h5 : guiding_seq t x 0 = 0 := rfl
  rw [← h5]
  exact loop_eq_of_stop hstop hmin fuel 0 (by omega) (by omega)

/-- C5: guided-descent stop rule.  For a well-formed tree and a ball whose
center lies in the half-open root box with radius `r > 0`: if
`level_to_rad(0)/2 < r`, the guiding box is the root for any fuel;
otherwise the descent follows the child containing the center one level at
a time (each visited box contains the center and its level equals the
iteration count), stopping at the first box that is a leaf or whose level
`L` satisfies `level_to_rad(L)/2 < r ≤ level_to_rad(L)`; and when
`r = level_to_rad(L)` exactly and no leaf is reached before level `L`, the
stopping level is exactly `L`. -/
theorem C5_guided_descent_stop_rule {t : BoxTree} (hw : WF t) {x : ℕ → ℚ}
    {radius : ℚ} (hx : in_root_box t x) (hr : 0 < radius) :
    (level_to_rad t.root_extent 0 / 2 < radius →
      ∀ fuel, find_guiding_box t x radius fuel = some 0) ∧
    (radius ≤ level_to_rad t.root_extent 0 / 2 →
      ∃ s, (∀ fuel, s < fuel →
          find_guiding_box t x radius fuel = some (guiding_seq t x s)) ∧
        (∀ j ≤ s, in_box_half_open t (guiding_seq t x j) x ∧
          t.box_levels (guiding_seq t x j) = j) ∧
        guiding_stop t radius (guiding_seq t x s) s ∧
        (∀ j < s, ¬guiding_stop t radius (guiding_seq t x j) j) ∧
        (∀ L, radius = level_to_rad t.root_extent L →
          (∀ j < L, t.box_has_children (guiding_seq t x j) = true) →
            s = L)) := by
  constructor
  · intro hlt fuel
    unfold find_guiding_box
    rw [if_neg (not_le.mpr hlt)]
  · intro hroot
    obtain ⟨s, hfind, hstop, hmin, hrle, hbnd, hdesc, hlt, hlev, hin⟩ :=
      find_guiding_box_char hw hx hr hroot
    have hall : ∀ j < s, t.box_has_children (guiding_seq t x j) = true := by
      intro j hj
      have h4 := hmin j hj
      unfold guiding_stop at h4
      push_neg at h4
      cases hcb : t.box_has_children (guiding_seq t x j) with
      | false => exact absurd hcb h4.1
      | true => rfl
    refine ⟨s, hfind, ?_, hstop, hmin, ?_⟩
    · intro j hj
      obtain ⟨_, _, hl2, hi2⟩ := guiding_seq_invariant hw hx j
        (fun j2 hj2 => hall j2 (by omega))
      exact ⟨hi2, hl2⟩
    · intro L hLr hnoleaf
      have hE : (0:ℚ) < t.root_extent := hw.extent_pos
      have hradL : 0 < level_to_rad t.root_extent L :=
        level_to_rad_pos hE L
      have hstopL : guiding_stop t radius (guiding_seq t x L) L :=
        Or.inr ⟨by rw [hLr]; linarith, le_of_eq hLr⟩
      have hnostop : ∀ j < L, ¬guiding_stop t radius (guiding_seq t x j) j := by
        intro j hj hstj
        rcases hstj with hleaf | hcond
        · rw [hnoleaf j hj] at hleaf
          exact Bool.noConfusion hleaf
        · have := radius_level_le hE hcond.1 (le_of_eq hLr)
          omega
      rcases Nat.lt_trichotomy s L with h | h | h
      · exact absurd hstop (hnostop s h)
      · exact h
      · exact absurd hstopL (hmin L h)

/-- C10 (implicit): the guided-descent loop terminates for every ball with
radius `r > 0` on any tree (no well-formedness needed), including balls
whose center lies outside the root box: a child lookup returning 0 makes
the current box box 0 (the root) while the level keeps increasing, and
the loop exits at the unique level `L` with
`level_to_rad(L)/2 < r ≤ level_to_rad(L)`, or earlier at a leaf. -/
theorem C10_guided_descent_terminates (t : BoxTree) (x : ℕ → ℚ)
    {radius : ℚ} (hr : 0 < radius) :
    (∀ i, t.box_child_ids (level_morton_number t x i) (guiding_seq t x i) = 0 →
      guiding_seq t x (i + 1) = 0) ∧
    (level_to_rad t.root_extent 0 / 2 < radius →
      ∀ fuel, find_guiding_box t x radius fuel = some 0) ∧
    (radius ≤ level_to_rad t.root_extent 0 / 2 →
      ∃ s L, (∀ fuel, s < fuel →
          find_guiding_box t x radius fuel = some (guiding_seq t x s)) ∧
        (level_to_rad t.root_extent L / 2 < radius ∧
          radius ≤ level_to_rad t.root_extent L) ∧
        (∀ L2, level_to_rad t.root_extent L2 / 2 < radius →
          radius ≤ level_to_rad t.root_extent L2 → L2 = L) ∧
        s ≤ L ∧
        (s = L ∨ t.box_has_children (guiding_seq t x s) = false)) := by
  refine ⟨fun i h => h, ?_, ?_⟩
  · intro hlt fuel
    unfold find_guiding_box
    rw [if_neg (not_le.mpr hlt)]
  · intro hroot
    have hE : (0:ℚ) < t.root_extent := by
      have h1 : 0 < level_to_rad t.root_extent 0 := by linarith
      unfold level_to_rad at h1
      nlinarith [h1]
    obtain ⟨s, hstop, hmin, hrle, hbnd⟩ :=
      @guiding_descent_exists_stop t x radius hr hroot
    obtain ⟨L, hL1, hL2⟩ := exists_radius_level hr hroot
    have huniq : ∀ L2, level_to_rad t.root_extent L2 / 2 < radius →
        radius ≤ level_to_rad t.root_extent L2 → L2 = L := by
      intro L2 ha hb
      have h1 := radius_level_le hE ha hL2
      have h2 := radius_level_le hE hL1 hb
      omega
    have hstopL : guiding_stop t radius (guiding_seq t x L) L :=
      Or.inr ⟨hL1, hL2⟩
    have hsL : s ≤ L := by
      by_contra h
      push_neg at h
      exact absurd hstopL (hmin L h)
    refine ⟨s, L, find_guiding_box_eq_of_stop hroot hstop hmin, ⟨hL1, hL2⟩,
      huniq, hsL, ?_⟩
    rcases hstop with hleaf | hcond
    · exact Or.inr hleaf
    · exact Or.inl (huniq s hcond.1 hcond.2)

theorem is_adjacent_or_overlapping_iff {E : ℚ} {dim : ℕ} {c1 : ℕ → ℚ}
    {l1 : ℕ} {c2 : ℕ → ℚ} {l2 : ℕ} :
    is_adjacent_or_overlapping E dim c1 l1 c2 l2 = true ↔
      ∀ a < dim, |c1 a - c2 a| ≤ level_to_rad E l1 + level_to_rad E l2 := by
  unfold is_adjacent_or_overlapping
  simp [List.all_eq_true, List.mem_range]

theorem check_l_infty_ball_overlap_iff {t : BoxTree} {box : ℕ} {radius : ℚ}
    {center : ℕ → ℚ} :
    check_l_infty_ball_overlap t box radius center = true ↔
      ∀ a < t.dim, |center a - t.box_centers box a| ≤
        level_to_rad t.root_extent (t.box_levels box) + radius := by
  unfold check_l_infty_ball_overlap
  simp [List.all_eq_true, List.mem_range]

theorem must_be_peer_iff {t : BoxTree} {center : ℕ → ℚ}
    {level child_box walk_level : ℕ} :
    must_be_peer t center level child_box walk_level = true ↔
      ∀ m < 2 ^ t.dim, t.box_child_ids m child_box ≠ 0 →
        ¬(is_adjacent_or_overlapping t.root_extent t.dim center level
          (t.box_centers (t.box_child_ids m child_box)) (walk_level + 2)
            = true) := by
  unfold must_be_peer
  simp only [List.all_eq_true, List.mem_range, Bool.or_eq_true,
    decide_eq_true_eq, Bool.not_eq_true', Bool.not_eq_true]
  constructor
  · intro h m hm hne
    rcases h m hm with h1 | h1
    · exact absurd h1 hne
    · exact h1
  · intro h m hm
    by_cases hne : t.box_child_ids m child_box = 0
    · exact Or.inl hne
    · exact Or.inr (h m hm hne)

theorem aoro_of_desc {t : BoxTree} (hw : WF t) {c0 : ℕ → ℚ} {l0 : ℕ}
    {z y : ℕ} (hz : z < t.nboxes) (hd : Desc t z y)
    (h : is_adjacent_or_overlapping t.root_extent t.dim c0 l0
      (t.box_centers y) (t.box_levels y) = true) :
    is_adjacent_or_overlapping t.root_extent t.dim c0 l0
      (t.box_centers z) (t.box_levels z) = true := by
  rw [is_adjacent_or_overlapping_iff] at h ⊢
  intro a ha
  have h1 := desc_center_dist hw hz hd a ha
  have h2 := h a ha
  calc |c0 a - t.box_centers z a|
      ≤ |c0 a - t.box_centers y a| +
          |t.box_centers y a - t.box_centers z a| := abs_sub_le _ _ _
    _ ≤ level_to_rad t.root_extent l0 + level_to_rad t.root_extent
          (t.box_levels z) := by linarith

theorem peer_walk_succ (t : BoxTree) (center : ℕ → ℚ)
    (level fuel box walk_level : ℕ) :
    peer_walk t center level (fuel + 1) box walk_level =
      (List.range (2 ^ t.dim)).flatMap fun morton =>
        if t.box_child_ids morton box = 0 then []
        else if is_adjacent_or_overlapping t.root_extent t.dim center level
            (t.box_centers (t.box_child_ids morton box)) (walk_level + 1) then
          if walk_level + 1 = level then [t.box_child_ids morton box]
          else if t.box_has_children (t.box_child_ids morton box) = false then
            [t.box_child_ids morton box]
          else if must_be_peer t center level (t.box_child_ids morton box)
              walk_level then [t.box_child_ids morton box]
          else peer_walk t center level fuel (t.box_child_ids morton box)
            (walk_level + 1)
        else [] := by
  rfl

theorem peer_walk_mem {t : BoxTree} (hw : WF t) (center : ℕ → ℚ) (level : ℕ) :
    ∀ fuel box walk_level p, box < t.nboxes →
      t.box_levels box = walk_level → walk_level < level →
      p ∈ peer_walk t center level fuel box walk_level →
      Desc t box p ∧ p ≠ box ∧ p < t.nboxes ∧
        is_adjacent_or_overlapping t.root_extent t.dim center level
          (t.box_centers p) (t.box_levels p) = true ∧
        t.box_levels p ≤ level ∧
        (t.box_levels p = level ∨ t.box_has_children p = false ∨
          must_be_peer t center level p (t.box_levels p - 1) = true) := by
  intro fuel
  induction fuel with
  | zero =>
    intro box walk_level p _ _ _ hmem
    simp [peer_walk] at hmem
  | succ fuel ih =>
    intro box walk_level p hbox hlev hwl hmem
    rw [peer_walk_succ, List.mem_flatMap] at hmem
    obtain ⟨m, hmr, hmem⟩ := hmem
    rw [List.mem_range] at hmr
    by_cases hc0 : t.box_child_ids m box = 0
    · rw [if_pos hc0] at hmem
      exact absurd hmem (List.not_mem_nil p)
    rw [if_neg hc0] at hmem
    by_cases haoro : is_adjacent_or_overlapping t.root_extent t.dim center
        level (t.box_centers (t.box_child_ids m box)) (walk_level + 1) = true
    swap
    · rw [if_neg haoro] at hmem
      exact absurd hmem (List.not_mem_nil p)
    rw [if_pos haoro] at hmem
    have hchlt : t.box_child_ids m box < t.nboxes :=
      hw.child_id_lt _ hmr _ hbox hc0
    have hchlev : t.box_levels (t.box_child_ids m box) = walk_level + 1 := by
      rw [hw.child_level _ hmr _ hbox hc0, hlev]
    have hdchild : Desc t box (t.box_child_ids m box) :=
      Desc.step _ (Desc.refl box) hmr hc0
    have hnebox : t.box_child_ids m box ≠ box := by
      intro he
      rw [he] at hchlev
      omega
    by_cases h1 : walk_level + 1 = level
    · rw [if_pos h1] at hmem
      rw [List.mem_singleton] at hmem
      subst hmem
      exact ⟨hdchild, hnebox, hchlt, hchlev ▸ haoro, by omega,
        Or.inl (by omega)⟩
    rw [if_neg h1] at hmem
    by_cases h2 : t.box_has_children (t.box_child_ids m box) = false
    · rw [if_pos h2] at hmem
      rw [List.mem_singleton] at hmem
      subst hmem
      exact ⟨hdchild, hnebox, hchlt, hchlev ▸ haoro, by omega, Or.inr (Or.inl h2)⟩
    rw [if_neg h2] at hmem
    by_cases h3 : must_be_peer t center level (t.box_child_ids m box)
        walk_level = true
    · rw [if_pos h3] at hmem
      rw [List.mem_singleton] at hmem
      subst hmem
      refine ⟨hdchild, hnebox, hchlt, hchlev ▸ haoro, by omega,
        Or.inr (Or.inr ?_)⟩
      rw [hchlev]
      simpa using h3
    rw [if_neg h3] at hmem
    obtain ⟨hd4, hne4, hlt4, hao4, hle4, hcase4⟩ :=
      ih _ _ p hchlt hchlev (by omega) hmem
    refine ⟨Desc.trans hdchild hd4, ?_, hlt4, hao4, hle4, hcase4⟩
    intro he
    have := desc_level_lt hw hchlt hd4 (Ne.symm hne4)
    rw [he, hlev] at this
    omega

theorem peer_walk_reaches {t : BoxTree} (hw : WF t) (center : ℕ → ℚ)
    (level : ℕ) :
    ∀ fuel box walk_level y, box < t.nboxes →
      t.box_levels box = walk_level → walk_level < level →
      Desc t box y → y ≠ box → t.box_levels y ≤ level →
      is_adjacent_or_overlapping t.root_extent t.dim center level
        (t.box_centers y) (t.box_levels y) = true →
      (t.box_levels y = level ∨ t.box_has_children y = false ∨
        must_be_peer t center level y (t.box_levels y - 1) = true) →
      t.box_levels y ≤ walk_level + fuel →
      y ∈ peer_walk t center level fuel box walk_level := by
  intro fuel
  induction fuel with
  | zero =>
    intro box walk_level y hbox hlev hwl hdesc hne hylev hao hcase hfuel
    have := desc_level_lt hw hbox hdesc (Ne.symm hne)
    omega
  | succ fuel ih =>
    intro box walk_level y hbox hlev hwl hdesc hne hylev hao hcase hfuel
    obtain ⟨m, hm, hc, hdesc2⟩ := desc_head hdesc (Ne.symm hne)
    have hchlt : t.box_child_ids m box < t.nboxes :=
      hw.child_id_lt _ hm _ hbox hc
    have hchlev : t.box_levels (t.box_child_ids m box) = walk_level + 1 := by
      rw [hw.child_level _ hm _ hbox hc, hlev]
    have haoro_child : is_adjacent_or_overlapping t.root_extent t.dim center
        level (t.box_centers (t.box_child_ids m box)) (walk_level + 1)
          = true := by
      have h5 := aoro_of_desc hw hchlt hdesc2 hao
      rw [hchlev] at h5
      exact h5
    rw [peer_walk_succ, List.mem_flatMap]
    refine ⟨m, List.mem_range.mpr hm, ?_⟩
    rw [if_neg hc, if_pos haoro_child]
    by_cases hcy : t.box_child_ids m box = y
    · subst hcy
      by_cases hl : walk_level + 1 = level
      · rw [if_pos hl]
        exact List.mem_singleton.mpr rfl
      rw [if_neg hl]
      by_cases hleaf : t.box_has_children (t.box_child_ids m box) = false
      · rw [if_pos hleaf]
        exact List.mem_singleton.mpr rfl
      rw [if_neg hleaf]
      rcases hcase with hcl | hcl | hcl
      · rw [hchlev] at hcl
        exact absurd hcl hl
      · exact absurd hcl hleaf
      · rw [hchlev] at hcl
        simp only [Nat.add_sub_cancel] at hcl
        rw [if_pos hcl]
        exact List.mem_singleton.mpr rfl
    · have hylt : t.box_levels (t.box_child_ids m box) < t.box_levels y :=
        desc_level_lt hw hchlt hdesc2 (Ne.symm (fun he => hcy he.symm))
      have hwll : walk_level + 1 < level := by omega
      rw [if_neg (by omega : ¬(walk_level + 1 = level))]
      obtain ⟨m2, hm2, hc2, hdesc3⟩ := desc_head hdesc2
        (fun he => hcy he)
      have hchch : t.box_has_children (t.box_child_ids m box) = true := by
        cases hfl : t.box_has_children (t.box_child_ids m box) with
        | true => rfl
        | false => exact absurd (hw.leaf_no_children _ hchlt hfl m2 hm2) hc2
      rw [if_neg (by rw [hchch]; exact Bool.noConfusion)]
      have hch2lt : t.box_child_ids m2 (t.box_child_ids m box) < t.nboxes :=
        hw.child_id_lt _ hm2 _ hchlt hc2
      have hch2lev : t.box_levels (t.box_child_ids m2 (t.box_child_ids m box))
          = walk_level + 2 := by
        rw [hw.child_level _ hm2 _ hchlt hc2, hchlev]
      have hmbp : ¬(must_be_peer t center level (t.box_child_ids m box)
          walk_level = true) := by
        intro hmbp
        have h6 := (must_be_peer_iff.mp hmbp) m2 hm2 hc2
        have h7 := aoro_of_desc hw hch2lt hdesc3 hao
        rw [hch2lev] at h7
        exact h6 h7
      rw [if_neg hmbp]
      exact ih _ _ y hchlt hchlev hwll hdesc2
        (fun he => hcy he.symm) hylev hao hcase (by omega)

theorem aoro_self {t : BoxTree} (hw : WF t) (b : ℕ) {l2 : ℕ} :
    is_adjacent_or_overlapping t.root_extent t.dim (t.box_centers b)
      (t.box_levels b) (t.box_centers b) l2 = true := by
  rw [is_adjacent_or_overlapping_iff]
  intro a ha
  have h1 := level_to_rad_pos hw.extent_pos (t.box_levels b)
  have h2 := level_to_rad_pos hw.extent_pos l2
  simp only [sub_self, abs_zero]
  linarith

theorem sibling_desc_eq {t : BoxTree} (hw : WF t) {box m m2 q : ℕ}
    (hbox : box < t.nboxes) (hm : m < 2 ^ t.dim) (hm2 : m2 < 2 ^ t.dim)
    (hc : t.box_child_ids m box ≠ 0) (hc2 : t.box_child_ids m2 box ≠ 0)
    (h1 : Desc t (t.box_child_ids m box) q)
    (h2 : Desc t (t.box_child_ids m2 box) q) : m = m2 := by
  have hlt1 : t.box_child_ids m box < t.nboxes := hw.child_id_lt _ hm _ hbox hc
  have hlt2 : t.box_child_ids m2 box < t.nboxes :=
    hw.child_id_lt _ hm2 _ hbox hc2
  have hl1 : t.box_levels (t.box_child_ids m box) = t.box_levels box + 1 :=
    hw.child_level _ hm _ hbox hc
  have hl2 : t.box_levels (t.box_child_ids m2 box) = t.box_levels box + 1 :=
    hw.child_level _ hm2 _ hbox hc2
  have heq : t.box_child_ids m box = t.box_child_ids m2 box := by
    rcases desc_total hw hlt2 h2 _ hlt1 h1 with h | h
    · exact desc_of_level_eq hw hlt1 h (by omega)
    · exact (desc_of_level_eq hw hlt2 h (by omega)).symm
  exact (hw.parent_unique m hm box hbox m2 hm2 box hbox hc heq).2

theorem peer_walk_branch_desc {t : BoxTree} (hw : WF t) (center : ℕ → ℚ)
    (level fuel box walk_level : ℕ) (hbox : box < t.nboxes)
    (hlev : t.box_levels box = walk_level) (hwl : walk_level < level)
    (m : ℕ) (hm : m < 2 ^ t.dim) {p : ℕ}
    (hmem : p ∈ if t.box_child_ids m box = 0 then ([] : List ℕ)
      else if is_adjacent_or_overlapping t.root_extent t.dim center level
          (t.box_centers (t.box_child_ids m box)) (walk_level + 1) then
        if walk_level + 1 = level then [t.box_child_ids m box]
        else if t.box_has_children (t.box_child_ids m box) = false then
          [t.box_child_ids m box]
        else if must_be_peer t center level (t.box_child_ids m box)
            walk_level then [t.box_child_ids m box]
        else peer_walk t center level fuel (t.box_child_ids m box)
          (walk_level + 1)
      else []) :
    t.box_child_ids m box ≠ 0 ∧ Desc t (t.box_child_ids m box) p := by
  by_cases hc0 : t.box_child_ids m box = 0
  · rw [if_pos hc0] at hmem
    exact absurd hmem (List.not_mem_nil p)
  rw [if_neg hc0] at hmem
  refine ⟨hc0, ?_⟩
  by_cases haoro : is_adjacent_or_overlapping t.root_extent t.dim center
      level (t.box_centers (t.box_child_ids m box)) (walk_level + 1) = true
  swap
  · rw [if_neg haoro] at hmem
    exact absurd hmem (List.not_mem_nil p)
  rw [if_pos haoro] at hmem
  have hchlt : t.box_child_ids m box < t.nboxes :=
    hw.child_id_lt _ hm _ hbox hc0
  have hchlev : t.box_levels (t.box_child_ids m box) = walk_level + 1 := by
    rw [hw.child_level _ hm _ hbox hc0, hlev]
  by_cases h1 : walk_level + 1 = level
  · rw [if_pos h1, List.mem_singleton] at hmem
    exact hmem ▸ Desc.refl _
  rw [if_neg h1] at hmem
  by_cases h2 : t.box_has_children (t.box_child_ids m box) = false
  · rw [if_pos h2, List.mem_singleton] at hmem
    exact hmem ▸ Desc.refl _
  rw [if_neg h2] at hmem
  by_cases h3 : must_be_peer t center level (t.box_child_ids m box)
      walk_level = true
  · rw [if_pos h3, List.mem_singleton] at hmem
    exact hmem ▸ Desc.refl _
  rw [if_neg h3] at hmem
  exact (peer_walk_mem hw center level fuel _ _ p hchlt hchlev
    (by omega) hmem).1

theorem peer_walk_pairwise {t : BoxTree} (hw : WF t) (center : ℕ → ℚ)
    (level : ℕ) :
    ∀ fuel box walk_level, box < t.nboxes →
      t.box_levels box = walk_level → walk_level < level →
      List.Pairwise (fun p q => ¬Desc t p q ∧ ¬Desc t q p)
        (peer_walk t center level fuel box walk_level) := by
  intro fuel
  induction fuel with
  | zero =>
    intro box walk_level _ _ _
    simp [peer_walk]
  | succ fuel ih =>
    intro box walk_level hbox hlev hwl
    rw [peer_walk_succ, List.pairwise_flatMap]
    constructor
    · intro m hmr
      rw [List.mem_range] at hmr
      by_cases hc0 : t.box_child_ids m box = 0
      · rw [if_pos hc0]
        exact List.Pairwise.nil
      rw [if_neg hc0]
      by_cases haoro : is_adjacent_or_overlapping t.root_extent t.dim center
          level (t.box_centers (t.box_child_ids m box)) (walk_level + 1)
            = true
      swap
      · rw [if_neg haoro]
        exact List.Pairwise.nil
      rw [if_pos haoro]
      have hchlt : t.box_child_ids m box < t.nboxes :=
        hw.child_id_lt _ hmr _ hbox hc0
      have hchlev : t.box_levels (t.box_child_ids m box) = walk_level + 1 := by
        rw [hw.child_level _ hmr _ hbox hc0, hlev]
      by_cases h1 : walk_level + 1 = level
      · rw [if_pos h1]
        exact List.pairwise_singleton _ _
      rw [if_neg h1]
      by_cases h2 : t.box_has_children (t.box_child_ids m box) = false
      · rw [if_pos h2]
        exact List.pairwise_singleton _ _
      rw [if_neg h2]
      by_cases h3 : must_be_peer t center level (t.box_child_ids m box)
          walk_level = true
      · rw [if_pos h3]
        exact List.pairwise_singleton _ _
      rw [if_neg h3]
      exact ih _ _ hchlt hchlev (by omega)
    · have hrange := List.pairwise_lt_range (2 ^ t.dim)
      apply hrange.imp_of_mem
      intro m m2 hmr hmr2 hmm
      rw [List.mem_range] at hmr hmr2
      intro p hp q hq
      have hd1 := peer_walk_branch_desc hw center level fuel box walk_level
        hbox hlev hwl m hmr hp
      have hd2 := peer_walk_branch_desc hw center level fuel box walk_level
        hbox hlev hwl m2 hmr2 hq
      constructor
      · intro hpq
        have := sibling_desc_eq hw hbox hmr hmr2 hd1.1 hd2.1
          (Desc.trans hd1.2 hpq) hd2.2
        omega
      · intro hqp
        have := sibling_desc_eq hw hbox hmr hmr2 hd1.1 hd2.1
          hd1.2 (Desc.trans hd2.2 hqp)
        omega

theorem root_peer_list (t : BoxTree) (fuel : ℕ) :
    peer_list_gen t fuel 0 = [0] := by
  rfl

/-- C6: root peer list.  For every tree (and any walk fuel), the peer list
the peer-list finder computes for box 0 (the root) is exactly `[0]`: the
kernel short-circuits on `box_id == 0` and appends only the root itself. -/
theorem C6_root_peer_list (t : BoxTree) (fuel : ℕ) :
    peer_list_gen t fuel 0 = [0] := by
  rfl

/-- C2: peer-list membership.  For a well-formed tree and any box `b`, every
element `p` of `b`'s computed peer list satisfies the three peer conditions:
`p` is adjacent to or overlapping `b` (L∞, edge-touching counts), `p`'s
level is at most `b`'s level, and no child of `p` is both
adjacent-or-overlapping `b` and of level at most `b`'s level.  Moreover an
internal box `c` with `level(c) < level(b)` that is adjacent-or-overlapping
`b` is emitted exactly when none of its existing children are
adjacent-or-overlapping `b`. -/
theorem C2_peer_list_membership {t : BoxTree} (hw : WF t) {b : ℕ}
    (hb : b < t.nboxes) {fuel : ℕ} (hfuel : t.nlevels ≤ fuel) :
    (∀ p ∈ peer_list_gen t fuel b,
      is_adjacent_or_overlapping t.root_extent t.dim (t.box_centers b)
        (t.box_levels b) (t.box_centers p) (t.box_levels p) = true ∧
      t.box_levels p ≤ t.box_levels b ∧
      (∀ m < 2 ^ t.dim, t.box_child_ids m p ≠ 0 →
        ¬(is_adjacent_or_overlapping t.root_extent t.dim (t.box_centers b)
            (t.box_levels b) (t.box_centers (t.box_child_ids m p))
            (t.box_levels (t.box_child_ids m p)) = true ∧
          t.box_levels (t.box_child_ids m p) ≤ t.box_levels b))) ∧
    (∀ c, c < t.nboxes → t.box_has_children c = true →
      t.box_levels c < t.box_levels b →
      is_adjacent_or_overlapping t.root_extent t.dim (t.box_centers b)
        (t.box_levels b) (t.box_centers c) (t.box_levels c) = true →
      (c ∈ peer_list_gen t fuel b ↔
        ∀ m < 2 ^ t.dim, t.box_child_ids m c ≠ 0 →
          ¬(is_adjacent_or_overlapping t.root_extent t.dim (t.box_centers b)
              (t.box_levels b) (t.box_centers (t.box_child_ids m c))
              (t.box_levels (t.box_child_ids m c)) = true))) := by
  by_cases hb0 : b = 0
  · subst hb0
    constructor
    · intro p hp
      rw [root_peer_list, List.mem_singleton] at hp
      subst hp
      refine ⟨aoro_self hw 0, le_refl _, ?_⟩
      intro m hm hc ⟨_, hlc⟩
      rw [hw.child_level _ hm _ hb hc] at hlc
      omega
    · intro c _ _ hlc _
      rw [hw.root_level] at hlc
      omega
  · have hdb : Desc t 0 b := hw.reachable b hb
    have hlb : 1 ≤ t.box_levels b := by
      have h1 := desc_level_lt hw hw.nboxes_pos hdb (Ne.symm hb0)
      rw [hw.root_level] at h1
      omega
    have hgen : peer_list_gen t fuel b =
        peer_walk t (t.box_centers b) (t.box_levels b) fuel 0 0 := by
      unfold peer_list_gen
      rw [if_neg hb0]
    constructor
    · intro p hp
      rw [hgen] at hp
      obtain ⟨hd1, hne1, hlt1, hao1, hle1, hcase1⟩ :=
        peer_walk_mem hw (t.box_centers b) (t.box_levels b) fuel 0 0 p
          hw.nboxes_pos hw.root_level (by omega) hp
      refine ⟨hao1, hle1, ?_⟩
      intro m hm hc ⟨haoc, hlec⟩
      have hlevc := hw.child_level _ hm _ hlt1 hc
      rcases hcase1 with hcl | hcl | hcl
      · omega
      · exact absurd (hw.leaf_no_children _ hlt1 hcl m hm) hc
      · -- p's level is at least 1 (p is a strict descendant of the root)
        have hpl : 1 ≤ t.box_levels p := by
          have h1 := desc_level_lt hw hw.nboxes_pos hd1 (Ne.symm hne1)
          rw [hw.root_level] at h1
          omega
        have h6 := (must_be_peer_iff.mp hcl) m hm hc
        rw [show t.box_levels p - 1 + 2 = t.box_levels p + 1 by omega] at h6
        rw [← hlevc] at h6
        exact h6 haoc
    · intro c hclt hcch hclev haoc
      rw [hgen]
      constructor
      · intro hmem
        obtain ⟨hd1, hne1, hlt1, hao1, hle1, hcase1⟩ :=
          peer_walk_mem hw (t.box_centers b) (t.box_levels b) fuel 0 0 c
            hw.nboxes_pos hw.root_level (by omega) hmem
        have hcl1 : 1 ≤ t.box_levels c := by
          have h1 := desc_level_lt hw hw.nboxes_pos hd1 (Ne.symm hne1)
          rw [hw.root_level] at h1
          omega
        rcases hcase1 with hcl | hcl | hcl
        · omega
        · rw [hcch] at hcl
          exact absurd hcl Bool.noConfusion
        · intro m hm hc
          have h6 := (must_be_peer_iff.mp hcl) m hm hc
          rw [show t.box_levels c - 1 + 2 = t.box_levels c + 1 by omega] at h6
          rw [← hw.child_level _ hm _ hclt hc] at h6
          exact h6
      · intro hrhs
        have hc0 : c ≠ 0 := by
          intro he
          subst he
          obtain ⟨m, hm, hc, hdch⟩ := desc_head hdb (Ne.symm hb0)
          have h7 := aoro_of_desc hw (hw.child_id_lt _ hm _ hw.nboxes_pos hc)
            hdch (aoro_self hw b)
          exact hrhs m hm hc h7
        have hdc : Desc t 0 c := hw.reachable c hclt
        have hcl1 : 1 ≤ t.box_levels c := by
          have h1 := desc_level_lt hw hw.nboxes_pos hdc (Ne.symm hc0)
          rw [hw.root_level] at h1
          omega
        have hmbp : must_be_peer t (t.box_centers b) (t.box_levels b) c
            (t.box_levels c - 1) = true := by
          rw [must_be_peer_iff]
          intro m hm hc
          rw [show t.box_levels c - 1 + 2 = t.box_levels c + 1 by omega]
          rw [← hw.child_level _ hm _ hclt hc]
          exact hrhs m hm hc
        apply peer_walk_reaches hw (t.box_centers b) (t.box_levels b) fuel 0 0
          c hw.nboxes_pos hw.root_level (by omega) hdc hc0 (by omega) haoc
          (Or.inr (Or.inr hmbp))
        have := hw.level_lt_nlevels c hclt
        omega

theorem walk_subtree_succ {α : Type} (t : BoxTree) (op : ℕ → List α)
    (fuel box : ℕ) :
    walk_subtree t op (fuel + 1) box =
      (List.range (2 ^ t.dim)).flatMap fun morton =>
        if t.box_child_ids morton box = 0 then []
        else if t.box_has_children (t.box_child_ids morton box) = true then
          walk_subtree t op fuel (t.box_child_ids morton box)
        else op (t.box_child_ids morton box) := by
  rfl

theorem walk_subtree_mem_sound {α : Type} (t : BoxTree) (op : ℕ → List α) :
    ∀ fuel box x, x ∈ walk_subtree t op fuel box →
      ∃ c, Desc t box c ∧ t.box_has_children c = false ∧ x ∈ op c := by
  intro fuel
  induction fuel with
  | zero =>
    intro box x hx
    simp [walk_subtree] at hx
  | succ fuel ih =>
    intro box x hx
    rw [walk_subtree_succ, List.mem_flatMap] at hx
    obtain ⟨m, hmr, hx⟩ := hx
    rw [List.mem_range] at hmr
    by_cases hc0 : t.box_child_ids m box = 0
    · rw [if_pos hc0] at hx
      exact absurd hx (List.not_mem_nil x)
    rw [if_neg hc0] at hx
    by_cases hch : t.box_has_children (t.box_child_ids m box) = true
    · rw [if_pos hch] at hx
      obtain ⟨c, h1, h2, h3⟩ := ih _ x hx
      exact ⟨c, Desc.trans (Desc.step _ (Desc.refl box) hmr hc0) h1, h2, h3⟩
    · rw [if_neg hch] at hx
      refine ⟨t.box_child_ids m box, Desc.step _ (Desc.refl box) hmr hc0,
        ?_, hx⟩
      cases hfl : t.box_has_children (t.box_child_ids m box) with
      | false => rfl
      | true => exact absurd hfl hch

theorem walk_subtree_mem_complete {α : Type} {t : BoxTree} (hw : WF t)
    (op : ℕ → List α) :
    ∀ fuel box l x, box < t.nboxes → Desc t box l → l ≠ box →
      t.box_has_children l = false → x ∈ op l →
      t.box_levels l ≤ t.box_levels box + fuel →
      x ∈ walk_subtree t op fuel box := by
  intro fuel
  induction fuel with
  | zero =>
    intro box l x hbox hdesc hne _ _ hlev
    have := desc_level_lt hw hbox hdesc (Ne.symm hne)
    omega
  | succ fuel ih =>
    intro box l x hbox hdesc hne hleaf hop hlev
    obtain ⟨m, hm, hc, hdesc2⟩ := desc_head hdesc (Ne.symm hne)
    have hchlt : t.box_child_ids m box < t.nboxes :=
      hw.child_id_lt _ hm _ hbox hc
    have hchlev : t.box_levels (t.box_child_ids m box) =
        t.box_levels box + 1 := hw.child_level _ hm _ hbox hc
    rw [walk_subtree_succ, List.mem_flatMap]
    refine ⟨m, List.mem_range.mpr hm, ?_⟩
    rw [if_neg hc]
    by_cases hcl : t.box_child_ids m box = l
    · rw [hcl, if_neg (by rw [hleaf]; exact Bool.noConfusion)]
      exact hop
    · obtain ⟨m2, hm2, hc2, _⟩ := desc_head hdesc2 (fun he => hcl he)
      have hch : t.box_has_children (t.box_child_ids m box) = true := by
        cases hfl : t.box_has_children (t.box_child_ids m box) with
        | true => rfl
        | false => exact absurd (hw.leaf_no_children _ hchlt hfl m2 hm2) hc2
      rw [if_pos hch]
      apply ih _ l x hchlt hdesc2 (fun he => hcl he.symm) hleaf hop
      omega

theorem walk_subtree_branch_desc {α : Type} {t : BoxTree} (op : ℕ → List α)
    {fuel box m : ℕ} {x : α}
    (hmem : x ∈ if t.box_child_ids m box = 0 then ([] : List α)
      else if t.box_has_children (t.box_child_ids m box) = true then
        walk_subtree t op fuel (t.box_child_ids m box)
      else op (t.box_child_ids m box)) :
    t.box_child_ids m box ≠ 0 ∧
      ∃ c, Desc t (t.box_child_ids m box) c ∧ x ∈ op c := by
  by_cases hc0 : t.box_child_ids m box = 0
  · rw [if_pos hc0] at hmem
    exact absurd hmem (List.not_mem_nil x)
  rw [if_neg hc0] at hmem
  refine ⟨hc0, ?_⟩
  by_cases hch : t.box_has_children (t.box_child_ids m box) = true
  · rw [if_pos hch] at hmem
    obtain ⟨c, h1, _, h3⟩ := walk_subtree_mem_sound t op fuel _ x hmem
    exact ⟨c, h1, h3⟩
  · rw [if_neg hch] at hmem
    exact ⟨t.box_child_ids m box, Desc.refl _, hmem⟩

theorem mem_of_op_singleton {op : ℕ → List ℕ}
    (hop : ∀ c, op c = [c] ∨ op c = []) {c x : ℕ} (hx : x ∈ op c) :
    x = c := by
  rcases hop c with h | h <;> rw [h] at hx
  · exact List.mem_singleton.mp hx
  · exact absurd hx (List.not_mem_nil x)

theorem walk_subtree_nodup {t : BoxTree} (hw : WF t) (op : ℕ → List ℕ)
    (hop : ∀ c, op c = [c] ∨ op c = []) :
    ∀ fuel box, box < t.nboxes → (walk_subtree t op fuel box).Nodup := by
  intro fuel
  induction fuel with
  | zero =>
    intro box _
    simp [walk_subtree]
  | succ fuel ih =>
    intro box hbox
    rw [walk_subtree_succ]
    apply List.pairwise_flatMap.mpr
    constructor
    · intro m hmr
      rw [List.mem_range] at hmr
      by_cases hc0 : t.box_child_ids m box = 0
      · rw [if_pos hc0]
        exact List.Pairwise.nil
      rw [if_neg hc0]
      by_cases hch : t.box_has_children (t.box_child_ids m box) = true
      · rw [if_pos hch]
        exact ih _ (hw.child_id_lt _ hmr _ hbox hc0)
      · rw [if_neg hch]
        rcases hop (t.box_child_ids m box) with h | h <;> rw [h]
        · exact List.pairwise_singleton _ _
        · exact List.Pairwise.nil
    · apply (List.pairwise_lt_range (2 ^ t.dim)).imp_of_mem
      intro m m2 hmr hmr2 hmm x hx y hy
      rw [List.mem_range] at hmr hmr2
      obtain ⟨hc1, c1, hd1, hx1⟩ := walk_subtree_branch_desc op hx
      obtain ⟨hc2, c2, hd2, hy1⟩ := walk_subtree_branch_desc op hy
      have hxc1 : x = c1 := mem_of_op_singleton hop hx1
      have hyc2 : y = c2 := mem_of_op_singleton hop hy1
      intro heq
      have hde : Desc t (t.box_child_ids m2 box) c1 := by
        rw [← hxc1, heq, hyc2]
        exact hd2
      have := sibling_desc_eq hw hbox hmr hmr2 hc1 hc2 (hxc1 ▸ hd1) hde
      omega

theorem ball_walk_mem_sound {α : Type} (t : BoxTree) (op : ℕ → List α)
    (peers : List ℕ) (wfuel : ℕ) :
    ∀ x ∈ ball_walk t op peers wfuel, ∃ p ∈ peers, ∃ c, Desc t p c ∧
      t.box_has_children c = false ∧ x ∈ op c := by
  intro x hx
  unfold ball_walk at hx
  rw [List.mem_flatMap] at hx
  obtain ⟨p, hp, hx⟩ := hx
  refine ⟨p, hp, ?_⟩
  by_cases hch : t.box_has_children p = true
  · rw [if_pos hch] at hx
    obtain ⟨c, h1, h2, h3⟩ := walk_subtree_mem_sound t op wfuel p x hx
    exact ⟨c, h1, h2, h3⟩
  · rw [if_neg hch] at hx
    refine ⟨p, Desc.refl p, ?_, hx⟩
    cases hfl : t.box_has_children p with
    | false => rfl
    | true => exact absurd hfl hch

theorem ball_walk_mem_complete {α : Type} {t : BoxTree} (hw : WF t)
    (op : ℕ → List α) (peers : List ℕ) (wfuel : ℕ) {p l : ℕ} {x : α}
    (hp : p ∈ peers) (hplt : p < t.nboxes) (hdesc : Desc t p l)
    (hleaf : t.box_has_children l = false) (hx : x ∈ op l)
    (hfuel : t.box_levels l ≤ t.box_levels p + wfuel) :
    x ∈ ball_walk t op peers wfuel := by
  unfold ball_walk
  rw [List.mem_flatMap]
  refine ⟨p, hp, ?_⟩
  by_cases hpl : p = l
  · subst hpl
    rw [if_neg (by rw [hleaf]; exact Bool.noConfusion)]
    exact hx
  · obtain ⟨m, hm, hc, _⟩ := desc_head hdesc (hpl)
    have hch : t.box_has_children p = true := by
      cases hfl : t.box_has_children p with
      | true => rfl
      | false => exact absurd (hw.leaf_no_children _ hplt hfl m hm) hc
    rw [if_pos hch]
    exact walk_subtree_mem_complete hw op wfuel p l x hplt hdesc
      (fun he => hpl he.symm) hleaf hx hfuel

theorem ball_walk_nodup {t : BoxTree} (hw : WF t) (op : ℕ → List ℕ)
    (hop : ∀ c, op c = [c] ∨ op c = []) {peers : List ℕ} (wfuel : ℕ)
    (hval : ∀ p ∈ peers, p < t.nboxes)
    (hpw : List.Pairwise (fun p q => ¬Desc t p q ∧ ¬Desc t q p) peers) :
    (ball_walk t op peers wfuel).Nodup := by
  unfold ball_walk
  apply List.pairwise_flatMap.mpr
  constructor
  · intro p hp
    by_cases hch : t.box_has_children p = true
    · rw [if_pos hch]
      exact walk_subtree_nodup hw op hop wfuel p (hval p hp)
    · rw [if_neg hch]
      rcases hop p with h | h <;> rw [h]
      · exact List.pairwise_singleton _ _
      · exact List.Pairwise.nil
  · apply hpw.imp_of_mem
    intro p q hpmem hqmem hpq x hx y hy
    have hsound : ∀ (pb : ℕ) (z : ℕ),
        z ∈ (if t.box_has_children pb = true then
          walk_subtree t op wfuel pb else op pb) → Desc t pb z := by
      intro pb z hz
      by_cases hch : t.box_has_children pb = true
      · rw [if_pos hch] at hz
        obtain ⟨c, h1, _, h3⟩ := walk_subtree_mem_sound t op wfuel pb z hz
        exact (mem_of_op_singleton hop h3) ▸ h1
      · rw [if_neg hch] at hz
        rw [mem_of_op_singleton hop hz]
        exact Desc.refl pb
    intro heq
    have hd1 : Desc t p x := hsound p x hx
    have hd2 : Desc t q x := heq ▸ hsound q y hy
    rcases desc_total hw (hval q hqmem) hd2 p (hval p hpmem) hd1 with h | h
    · exact hpq.1 h
    · exact hpq.2 h

theorem half_open_abs {t : BoxTree} {b : ℕ} {x : ℕ → ℚ}
    (hx : in_box_half_open t b x) {a : ℕ} (ha : a < t.dim) :
    |x a - t.box_centers b a| ≤
      level_to_rad t.root_extent (t.box_levels b) := by
  obtain ⟨h1, h2⟩ := hx a ha
  rw [abs_le]
  constructor <;> linarith

theorem aoro_of_overlap_coarse {t : BoxTree} (hw : WF t) {g l : ℕ}
    (hgd : Desc t 0 g) (hld : Desc t 0 l) {x : ℕ → ℚ} {r : ℚ}
    (hx : in_box_half_open t g x)
    (hrle : r ≤ level_to_rad t.root_extent (t.box_levels g))
    (hov : check_l_infty_ball_overlap t l r x = true)
    (hll : t.box_levels l < t.box_levels g) :
    is_adjacent_or_overlapping t.root_extent t.dim (t.box_centers g)
      (t.box_levels g) (t.box_centers l) (t.box_levels l) = true := by
  rw [is_adjacent_or_overlapping_iff]
  intro a ha
  rw [check_l_infty_ball_overlap_iff] at hov
  have hradpos : 0 < level_to_rad t.root_extent (t.box_levels g) :=
    level_to_rad_pos hw.extent_pos _
  have hscale : level_to_rad t.root_extent (t.box_levels l) =
      2 ^ (t.box_levels g - t.box_levels l) *
        level_to_rad t.root_extent (t.box_levels g) :=
    level_to_rad_scale (by omega)
  obtain ⟨kg, hkg⟩ := desc_grid hw hgd a ha
  obtain ⟨kl, hkl⟩ := desc_grid hw hld a ha
  have h1 : |x a - t.box_centers g a| ≤
      level_to_rad t.root_extent (t.box_levels g) := half_open_abs hx ha
  have h2 := hov a ha
  have htri : |t.box_centers g a - t.box_centers l a| ≤
      (2 ^ (t.box_levels g - t.box_levels l) + 2) *
        level_to_rad t.root_extent (t.box_levels g) := by
    have h3 : |t.box_centers g a - x a| = |x a - t.box_centers g a| :=
      abs_sub_comm _ _
    calc |t.box_centers g a - t.box_centers l a|
        ≤ |t.box_centers g a - x a| + |x a - t.box_centers l a| :=
          abs_sub_le _ _ _
      _ ≤ level_to_rad t.root_extent (t.box_levels g) +
            (level_to_rad t.root_extent (t.box_levels l) + r) := by
          rw [h3]
          linarith
      _ ≤ (2 ^ (t.box_levels g - t.box_levels l) + 2) *
            level_to_rad t.root_extent (t.box_levels g) := by
          rw [hscale]
          ring_nf
          linarith
  have hpowQ : (2:ℚ) ^ (t.box_levels g - t.box_levels l) =
      2 * 2 ^ (t.box_levels g - t.box_levels l - 1) := by
    rw [← pow_succ']
    congr 1
    omega
  obtain ⟨m, hm⟩ : ∃ m : ℤ, t.box_centers g a - t.box_centers l a =
      (2 * (m:ℚ) + 1) * level_to_rad t.root_extent (t.box_levels g) := by
    refine ⟨(kg : ℤ) - (2 * kl + 1) *
      2 ^ (t.box_levels g - t.box_levels l - 1), ?_⟩
    rw [hkg, hkl, hscale, hpowQ]
    push_cast
    ring
  have habs : |2 * (m:ℚ) + 1| ≤
      2 ^ (t.box_levels g - t.box_levels l) + 2 := by
    have h4 : |2 * (m:ℚ) + 1| * level_to_rad t.root_extent (t.box_levels g) =
        |t.box_centers g a - t.box_centers l a| := by
      rw [hm, abs_mul, abs_of_pos hradpos]
    have h5 := htri
    rw [← h4] at h5
    exact le_of_mul_le_mul_right h5 hradpos
  have hZ : |2 * m + 1| ≤ 2 * 2 ^ (t.box_levels g - t.box_levels l - 1) + 2 := by
    have h6 : ((|2 * m + 1| : ℤ) : ℚ) ≤
        2 * 2 ^ (t.box_levels g - t.box_levels l - 1) + 2 := by
      rw [Int.cast_abs]
      push_cast
      rw [← hpowQ]
      push_cast at habs
      exact habs
    exact_mod_cast h6
  have hZ2 : |2 * m + 1| ≤ 2 * 2 ^ (t.box_levels g - t.box_levels l - 1) + 1 := by
    have hP : (0:ℤ) ≤ 2 ^ (t.box_levels g - t.box_levels l - 1) := by positivity
    rcases abs_cases (2 * m + 1) with ⟨he, _⟩ | ⟨he, _⟩ <;> omega
  have hfin : |2 * (m:ℚ) + 1| ≤ 2 ^ (t.box_levels g - t.box_levels l) + 1 := by
    have h7 : ((|2 * m + 1| : ℤ) : ℚ) ≤
        ((2 * 2 ^ (t.box_levels g - t.box_levels l - 1) + 1 : ℤ) : ℚ) := by
      exact_mod_cast hZ2
    rw [Int.cast_abs] at h7
    push_cast at h7
    rw [hpowQ]
    linarith
  calc |t.box_centers g a - t.box_centers l a|
      = |2 * (m:ℚ) + 1| * level_to_rad t.root_extent (t.box_levels g) := by
        rw [hm, abs_mul, abs_of_pos hradpos]
    _ ≤ (2 ^ (t.box_levels g - t.box_levels l) + 1) *
          level_to_rad t.root_extent (t.box_levels g) :=
        mul_le_mul_of_nonneg_right hfin (le_of_lt hradpos)
    _ = level_to_rad t.root_extent (t.box_levels g) +
          level_to_rad t.root_extent (t.box_levels l) := by
        rw [hscale]
        ring

theorem aoro_of_overlap_ancestor {t : BoxTree} (hw : WF t) {g l z : ℕ}
    (hgd : Desc t 0 g) (hzd : Desc t 0 z) (hzlt : z < t.nboxes)
    (hzl : Desc t z l) {x : ℕ → ℚ} {r : ℚ}
    (hx : in_box_half_open t g x)
    (hrle : r ≤ level_to_rad t.root_extent (t.box_levels g))
    (hov : check_l_infty_ball_overlap t l r x = true)
    (hlev : t.box_levels z = t.box_levels g) :
    is_adjacent_or_overlapping t.root_extent t.dim (t.box_centers g)
      (t.box_levels g) (t.box_centers z) (t.box_levels z) = true := by
  rw [is_adjacent_or_overlapping_iff]
  intro a ha
  rw [check_l_infty_ball_overlap_iff] at hov
  have hradpos : 0 < level_to_rad t.root_extent (t.box_levels g) :=
    level_to_rad_pos hw.extent_pos _
  obtain ⟨kg, hkg⟩ := desc_grid hw hgd a ha
  obtain ⟨kz, hkz⟩ := desc_grid hw hzd a ha
  rw [hlev] at hkz
  have h1 : |x a - t.box_centers g a| ≤
      level_to_rad t.root_extent (t.box_levels g) := half_open_abs hx ha
  have h2 := hov a ha
  have h3 := desc_center_dist hw hzlt hzl a ha
  rw [hlev] at h3
  have htri : |t.box_centers g a - t.box_centers z a| ≤
      3 * level_to_rad t.root_extent (t.box_levels g) := by
    have h4 : |t.box_centers g a - x a| = |x a - t.box_centers g a| :=
      abs_sub_comm _ _
    calc |t.box_centers g a - t.box_centers z a|
        ≤ |t.box_centers g a - x a| + |x a - t.box_centers z a| :=
          abs_sub_le _ _ _
      _ ≤ |x a - t.box_centers g a| + (|x a - t.box_centers l a| +
            |t.box_centers l a - t.box_centers z a|) := by
          rw [h4]
          have := abs_sub_le (x a) (t.box_centers l a) (t.box_centers z a)
          linarith
      _ ≤ 3 * level_to_rad t.root_extent (t.box_levels g) := by
          have hlr : 0 ≤ level_to_rad t.root_extent (t.box_levels l) := by
            have := level_to_rad_pos hw.extent_pos (t.box_levels l)
            linarith
          linarith
  obtain ⟨m, hm⟩ : ∃ m : ℤ, t.box_centers g a - t.box_centers z a =
      2 * (m:ℚ) * level_to_rad t.root_extent (t.box_levels g) := by
    refine ⟨(kg : ℤ) - kz, ?_⟩
    rw [hkg, hkz]
    push_cast
    ring
  have h4 : |t.box_centers g a - t.box_centers z a| =
      |2 * (m:ℚ)| * level_to_rad t.root_extent (t.box_levels g) := by
    rw [hm, abs_mul, abs_of_pos hradpos]
  have habs : |2 * (m:ℚ)| ≤ 3 := by
    have h5 := htri
    rw [h4] at h5
    exact le_of_mul_le_mul_right h5 hradpos
  have hZ : |2 * m| ≤ 3 := by
    have h6 : ((|2 * m| : ℤ) : ℚ) ≤ 3 := by
      rw [Int.cast_abs]
      push_cast
      push_cast at habs
      exact habs
    exact_mod_cast h6
  have hZ2 : |2 * m| ≤ 2 := by
    rcases abs_cases (2 * m) with ⟨he, _⟩ | ⟨he, _⟩ <;> omega
  have hfin : |2 * (m:ℚ)| ≤ 2 := by
    have h7 : ((|2 * m| : ℤ) : ℚ) ≤ ((2 : ℤ) : ℚ) := by exact_mod_cast hZ2
    rw [Int.cast_abs] at h7
    push_cast at h7
    exact h7
  calc |t.box_centers g a - t.box_centers z a|
      = |2 * (m:ℚ)| * level_to_rad t.root_extent (t.box_levels g) := h4
    _ ≤ 2 * level_to_rad t.root_extent (t.box_levels g) :=
        mul_le_mul_of_nonneg_right hfin (le_of_lt hradpos)
    _ = level_to_rad t.root_extent (t.box_levels g) +
          level_to_rad t.root_extent (t.box_levels g) := by ring
    _ ≤ level_to_rad t.root_extent (t.box_levels g) +
          level_to_rad t.root_extent (t.box_levels z) := by
        rw [hlev]

theorem aq_op_singleton (t : BoxTree) (bl : Ball) (c : ℕ) :
    aq_leaf_found_op t bl c = [c] ∨ aq_leaf_found_op t bl c = [] := by
  unfold aq_leaf_found_op
  by_cases h : check_l_infty_ball_overlap t c bl.radius bl.center = true
  · rw [if_pos h]
    exact Or.inl rfl
  · rw [if_neg h]
    exact Or.inr rfl

theorem aq_op_mem {t : BoxTree} {bl : Ball} {c x : ℕ} :
    x ∈ aq_leaf_found_op t bl c ↔ x = c ∧
      check_l_infty_ball_overlap t c bl.radius bl.center = true := by
  unfold aq_leaf_found_op
  by_cases h : check_l_infty_ball_overlap t c bl.radius bl.center = true
  · rw [if_pos h]
    simp [h]
  · rw [if_neg h]
    simp [h]

theorem root_leaf_desc {t : BoxTree} (hw : WF t)
    (hleaf : t.box_has_children 0 = false) {l : ℕ} (h : Desc t 0 l) :
    l = 0 := by
  by_cases hl0 : l = 0
  · exact hl0
  · obtain ⟨m, hm, hc, _⟩ := desc_head h (fun he => hl0 he.symm)
    exact absurd (hw.leaf_no_children 0 hw.nboxes_pos hleaf m hm) hc

theorem guiding_peers_cover {t : BoxTree} (hw : WF t) {bl : Ball}
    (hx : in_root_box t bl.center) (hr : 0 < bl.radius)
    {pfuel gfuel : ℕ} (hpf : t.nlevels ≤ pfuel)
    (hgf : ∃ L, level_to_rad t.root_extent L / 2 < bl.radius ∧ L < gfuel) :
    ∃ g, find_guiding_box t bl.center bl.radius gfuel = some g ∧
      (∀ p ∈ peer_list_gen t pfuel g, p < t.nboxes) ∧
      List.Pairwise (fun p q => ¬Desc t p q ∧ ¬Desc t q p)
        (peer_list_gen t pfuel g) ∧
      (∀ l, l < t.nboxes → t.box_has_children l = false →
        check_l_infty_ball_overlap t l bl.radius bl.center = true →
        ∃ p ∈ peer_list_gen t pfuel g, Desc t p l) := by
  rcases lt_or_ge (level_to_rad t.root_extent 0 / 2) bl.radius with hroot | hroot
  · refine ⟨0, ?_, ?_, ?_, ?_⟩
    · unfold find_guiding_box
      rw [if_neg (not_le.mpr hroot)]
    · rw [root_peer_list]
      intro p hp
      rw [List.mem_singleton] at hp
      subst hp
      exact hw.nboxes_pos
    · rw [root_peer_list]
      exact List.pairwise_singleton _ _
    · rw [root_peer_list]
      intro l hlt _ _
      exact ⟨0, List.mem_singleton.mpr rfl, hw.reachable l hlt⟩
  · obtain ⟨s, hfind, hstop, hmin, hrle, hbnd, hdesc, hglt, hglev, hgin⟩ :=
      find_guiding_box_char hw hx hr hroot
    obtain ⟨L0, hL0, hL0f⟩ := hgf
    have hsf : s < gfuel := by
      have := hbnd L0 hL0
      omega
    refine ⟨guiding_seq t bl.center s, hfind gfuel hsf, ?_, ?_, ?_⟩
    · by_cases hs0 : guiding_seq t bl.center s = 0
      · rw [hs0, root_peer_list]
        intro p hp
        rw [List.mem_singleton] at hp
        subst hp
        exact hw.nboxes_pos
      · have hs1 : 1 ≤ s := by
          by_contra hc
          push_neg at hc
          interval_cases s
          exact hs0 rfl
        unfold peer_list_gen
        rw [if_neg hs0]
        intro p hp
        exact (peer_walk_mem hw _ _ pfuel 0 0 p hw.nboxes_pos
          hw.root_level (by omega) hp).2.2.1
    · by_cases hs0 : guiding_seq t bl.center s = 0
      · rw [hs0, root_peer_list]
        exact List.pairwise_singleton _ _
      · have hs1 : 1 ≤ s := by
          by_contra hc
          push_neg at hc
          interval_cases s
          exact hs0 rfl
        unfold peer_list_gen
        rw [if_neg hs0]
        exact peer_walk_pairwise hw _ _ pfuel 0 0 hw.nboxes_pos
          hw.root_level (by omega)
    · intro l hlt hfl hov
      have hld : Desc t 0 l := hw.reachable l hlt
      by_cases hs0 : guiding_seq t bl.center s = 0
      · have hs00 : s = 0 := by
          have := hglev
          rw [hs0, hw.root_level] at this
          omega
        have hrleaf : t.box_has_children 0 = false := by
          rcases hstop with h | h
          · rw [← hs0]
            exact h
          · rw [hs00] at h
            exact absurd h.1 (not_lt.mpr hroot)
        rw [hs0, root_peer_list]
        exact ⟨0, List.mem_singleton.mpr rfl, hld⟩
      · have hs1 : 1 ≤ s := by
          by_contra hc
          push_neg at hc
          interval_cases s
          exact hs0 rfl
        have hgen : peer_list_gen t pfuel (guiding_seq t bl.center s) =
            peer_walk t (t.box_centers (guiding_seq t bl.center s))
              (t.box_levels (guiding_seq t bl.center s)) pfuel 0 0 := by
          unfold peer_list_gen
          rw [if_neg hs0]
        have hrles : bl.radius ≤ level_to_rad t.root_extent
            (t.box_levels (guiding_seq t bl.center s)) := by
          rw [hglev]
          exact hrle
        rw [hgen]
        have hlne0 : l ≠ 0 := by
          intro he
          subst he
          exact hs0 (root_leaf_desc hw hfl hdesc)
        rcases lt_or_ge (t.box_levels l) s with hcase | hcase
        · have haoro := aoro_of_overlap_coarse hw hdesc hld hgin hrles hov
            (by omega)
          refine ⟨l, ?_, Desc.refl l⟩
          apply peer_walk_reaches hw _ _ pfuel 0 0 l hw.nboxes_pos
            hw.root_level (by omega) hld hlne0 (by omega) haoro
            (Or.inr (Or.inl hfl))
          have := hw.level_lt_nlevels l hlt
          omega
        · obtain ⟨z, hz1, hz2, hz3⟩ := desc_anc_at_level hw hw.nboxes_pos
            hld s (by rw [hw.root_level]; omega) hcase
          have hzlt : z < t.nboxes := desc_lt_nboxes hw hw.nboxes_pos hz1
          have hzne0 : z ≠ 0 := by
            intro he
            rw [he, hw.root_level] at hz3
            omega
          have hzlev : t.box_levels z =
              t.box_levels (guiding_seq t bl.center s) := by
            rw [hglev, hz3]
          have haoro := aoro_of_overlap_ancestor hw hdesc hz1 hzlt hz2 hgin
            hrles hov hzlev
          refine ⟨z, ?_, hz2⟩
          apply peer_walk_reaches hw _ _ pfuel 0 0 z hw.nboxes_pos
            hw.root_level (by omega) hz1 hzne0 (by omega) haoro
            (Or.inl hzlev)
          have := hw.level_lt_nlevels z hzlt
          omega

/-- C1 (amended): area-query correctness for balls whose center lies in the
half-open root box.  For every well-formed tree and every ball with positive
radius and center in the half-open root box, the per-ball emission list of
the area-query walker (running on the peer lists computed by the peer-list
finder, with sufficient fuel) contains exactly the leaf boxes (boxes with
the `HAS_CHILDREN` flag clear) whose L∞ closure overlaps the ball
(`max_a |c[a]-cb[a]| ≤ hb + r`, edge-touching counts), and each such leaf
appears exactly once (the list has no duplicates).  The claim as frozen,
which quantifies over arbitrary ball centers, fails on the code; see the
counterexample theorem. -/
theorem C1_area_query_correct {t : BoxTree} (hw : WF t) {bl : Ball}
    (hx : in_root_box t bl.center) (hr : 0 < bl.radius)
    {pfuel wfuel gfuel : ℕ} (hpf : t.nlevels ≤ pfuel)
    (hwf : t.nlevels ≤ wfuel)
    (hgf : ∃ L, level_to_rad t.root_extent L / 2 < bl.radius ∧ L < gfuel) :
    ∃ res, area_query_ball t (peer_list_gen t pfuel) bl gfuel wfuel
        = some res ∧
      res.Nodup ∧
      ∀ l, l ∈ res ↔ l < t.nboxes ∧ t.box_has_children l = false ∧
        check_l_infty_ball_overlap t l bl.radius bl.center = true := by
  obtain ⟨g, hfind, hval, hpw, hcover⟩ :=
    guiding_peers_cover hw hx hr hpf hgf
  refine ⟨ball_walk t (aq_leaf_found_op t bl) (peer_list_gen t pfuel g) wfuel,
    ?_, ?_, ?_⟩
  · unfold area_query_ball
    rw [hfind]
  · exact ball_walk_nodup hw _ (aq_op_singleton t bl) wfuel hval hpw
  · intro l
    constructor
    · intro hl
      obtain ⟨p, hp, c, hd, hfl, hop⟩ := ball_walk_mem_sound t _ _ _ l hl
      obtain ⟨hlc, hov⟩ := aq_op_mem.mp hop
      subst hlc
      exact ⟨desc_lt_nboxes hw (hval p hp) hd, hfl, hov⟩
    · intro ⟨hlt, hfl, hov⟩
      obtain ⟨p, hp, hdesc⟩ := hcover l hlt hfl hov
      apply ball_walk_mem_complete hw _ _ wfuel hp (hval p hp) hdesc hfl
        (aq_op_mem.mpr ⟨rfl, hov⟩)
      have h1 := hw.level_lt_nlevels l hlt
      omega

theorem axis_bits_eq {t : BoxTree} {center : ℕ → ℚ} {a L n : ℕ}
    (h : ⌊(center a - t.bbox_min a) / t.root_extent * 2 ^ (1 + L)⌋ = (n:ℤ)) :
    axis_bits t center a L = n := by
  unfold axis_bits
  rw [h]
  exact Int.toNat_natCast n

/-- A concrete well-formed 1-d tree over the root interval [0,2]: the root
(box 0) splits into [0,1] (box 1) and [1,2] (box 2); each splits again into
two level-2 leaves (boxes 3,4 and 5,6). -/
def cex_tree : BoxTree where
  dim := 1
  nboxes := 7
  nlevels := 3
  root_extent := 2
  bbox_min := fun _ => 0
  box_centers := fun b _ =>
    if b = 0 then 1
    else if b = 1 then 1/2
    else if b = 2 then 3/2
    else if b = 3 then 1/4
    else if b = 4 then 3/4
    else if b = 5 then 5/4
    else if b = 6 then 7/4
    else 0
  box_levels := fun b =>
    if b = 0 then 0 else if b ≤ 2 then 1 else if b ≤ 6 then 2 else 0
  box_has_children := fun b => decide (b ≤ 2)
  box_child_ids := fun m b =>
    if m = 0 then
      if b = 0 then 1 else if b = 1 then 3 else if b = 2 then 5 else 0
    else if m = 1 then
      if b = 0 then 2 else if b = 1 then 4 else if b = 2 then 6 else 0
    else 0

/-- A ball whose center (2.1) lies outside the root box [0,2) of
`cex_tree`, with positive radius 0.15.  Its L∞ ball [1.95, 2.25] touches the
leaf box 6 = [1.5, 2.0]. -/
def cex_ball : Ball := ⟨fun _ => 21/10, 3/20⟩

theorem cex_wf : WF cex_tree := by
  refine ⟨?_, ?_, ?_, ?_, ?_, ?_, ?_, ?_, ?_, ?_, ?_, ?_, ?_⟩
  · decide
  · decide
  · norm_num [cex_tree]
  · rfl
  · intro a ha
    norm_num [cex_tree]
  · decide
  · decide
  · decide
  · intro m hm b hb hc a ha
    have ha2 : a < 1 := ha
    have hm2 : m < 2 := hm
    have hb2 : b < 7 := hb
    interval_cases a
    interval_cases m <;> interval_cases b <;>
      first
        | exact absurd rfl hc
        | norm_num [cex_tree, level_to_rad, Nat.shiftRight_eq_div_pow]
  · decide
  · decide
  · have h : ∀ m : Fin 2, ∀ b : Fin 7, ∀ m2 : Fin 2, ∀ b2 : Fin 7,
        cex_tree.box_child_ids m b ≠ 0 →
        cex_tree.box_child_ids m b = cex_tree.box_child_ids m2 b2 →
        (b:ℕ) = b2 ∧ (m:ℕ) = m2 := by decide
    intro m hm b hb m2 hm2 b2 hb2 hc he
    exact h ⟨m, hm⟩ ⟨b, hb⟩ ⟨m2, hm2⟩ ⟨b2, hb2⟩ hc he
  · intro b hb
    have hb2 : b < 7 := hb
    have e1 : cex_tree.box_child_ids 0 0 = 1 := rfl
    have e2 : cex_tree.box_child_ids 1 0 = 2 := rfl
    have e3 : cex_tree.box_child_ids 0 1 = 3 := rfl
    have e4 : cex_tree.box_child_ids 1 1 = 4 := rfl
    have e5 : cex_tree.box_child_ids 0 2 = 5 := rfl
    have e6 : cex_tree.box_child_ids 1 2 = 6 := rfl
    have d1 : Desc cex_tree 0 1 :=
      e1 ▸ Desc.step 0 (Desc.refl 0) (by decide) (by decide)
    have d2 : Desc cex_tree 0 2 :=
      e2 ▸ Desc.step 1 (Desc.refl 0) (by decide) (by decide)
    clear hb
    interval_cases b
    · exact Desc.refl 0
    · exact d1
    · exact d2
    · exact e3 ▸ Desc.step 0 d1 (by decide) (by decide)
    · exact e4 ▸ Desc.step 1 d1 (by decide) (by decide)
    · exact e5 ▸ Desc.step 0 d2 (by decide) (by decide)
    · exact e6 ▸ Desc.step 1 d2 (by decide) (by decide)

theorem cex_bits0 : axis_bits cex_tree cex_ball.center 0 0 = 2 :=
  axis_bits_eq (by norm_num [cex_tree, cex_ball])

theorem cex_bits1 : axis_bits cex_tree cex_ball.center 0 1 = 4 :=
  axis_bits_eq (by norm_num [cex_tree, cex_ball])

theorem cex_morton0 : level_morton_number cex_tree cex_ball.center 0 = 0 := by
  unfold level_morton_number
  rw [show List.range cex_tree.dim = [0] from rfl, List.foldl_cons,
    List.foldl_nil, cex_bits0]
  decide

theorem cex_morton1 : level_morton_number cex_tree cex_ball.center 1 = 0 := by
  unfold level_morton_number
  rw [show List.range cex_tree.dim = [0] from rfl, List.foldl_cons,
    List.foldl_nil, cex_bits1]
  decide

theorem cex_find : find_guiding_box cex_tree cex_ball.center cex_ball.radius 3
    = some 3 := by
  unfold find_guiding_box
  rw [if_pos (by norm_num [level_to_rad, cex_tree, cex_ball] :
    level_to_rad cex_tree.root_extent 0 / 2 ≥ cex_ball.radius)]
  rw [show (3:ℕ) = 2 + 1 from rfl, find_guiding_box_loop_unfold]
  rw [if_neg (by
    norm_num [guiding_stop, level_to_rad, cex_tree, cex_ball])]
  rw [cex_morton0]
  rw [show cex_tree.box_child_ids 0 0 = 1 from rfl]
  rw [show (2:ℕ) = 1 + 1 from rfl, find_guiding_box_loop_unfold]
  rw [if_neg (by
    norm_num [guiding_stop, level_to_rad, cex_tree, cex_ball])]
  rw [cex_morton1]
  rw [show cex_tree.box_child_ids 0 1 = 3 from rfl]
  rw [find_guiding_box_loop_unfold]
  rw [if_pos (by
    norm_num [guiding_stop, level_to_rad, cex_tree, cex_ball] :
      guiding_stop cex_tree cex_ball.radius 3 2)]

set_option maxHeartbeats 8000000 in
theorem cex_peers3 : peer_list_gen cex_tree 3 3 = [3, 4] := by
  norm_num [peer_list_gen, peer_walk, must_be_peer, is_adjacent_or_overlapping,
    level_to_rad, cex_tree, List.range_succ, List.flatMap, abs_of_nonneg,
    abs_of_nonpos]

set_option maxHeartbeats 8000000 in
theorem cex_aq : area_query_ball cex_tree (peer_list_gen cex_tree 3) cex_ball
    3 3 = some [] := by
  unfold area_query_ball
  rw [cex_find]
  show some (ball_walk cex_tree (aq_leaf_found_op cex_tree cex_ball)
    (peer_list_gen cex_tree 3 3) 3) = some []
  rw [cex_peers3]
  norm_num [ball_walk, walk_subtree, aq_leaf_found_op,
    check_l_infty_ball_overlap, level_to_rad, cex_tree, cex_ball,
    List.range_succ, List.flatMap, abs_of_nonneg, abs_of_nonpos]

set_option maxHeartbeats 8000000 in
theorem cex_leaf6 : check_l_infty_ball_overlap cex_tree 6 cex_ball.radius
    cex_ball.center = true := by
  norm_num [check_l_infty_ball_overlap, level_to_rad, cex_tree, cex_ball,
    List.range_succ, abs_of_nonneg, abs_of_nonpos]

/-- C1 counterexample: on the well-formed tree `cex_tree`, the ball
`cex_ball` (radius 3/20 > 0, center 2.1 outside the root box) produces an
empty area-query list, yet leaf box 6 L∞-overlaps the ball: the claim that
the list contains every overlapping leaf fails on the code. -/
theorem C1_counterexample :
    area_query_ball cex_tree (peer_list_gen cex_tree 3) cex_ball 3 3
        = some [] ∧
    (6:ℕ) ∉ ([] : List ℕ) ∧
    cex_tree.box_has_children 6 = false ∧ (6:ℕ) < cex_tree.nboxes ∧
    check_l_infty_ball_overlap cex_tree 6 cex_ball.radius cex_ball.center
        = true ∧
    (0:ℚ) < cex_ball.radius ∧ WF cex_tree :=
  ⟨cex_aq, List.not_mem_nil 6, rfl, by decide, cex_leaf6,
    by norm_num [cex_ball], cex_wf⟩

/-- Witness for C1 at a concrete input: the amended theorem applies to
`cex_tree` with a ball of radius 1/10 centered at 1/2 (inside the root
box). -/
theorem C1_area_query_correct_witness :
    ∃ res, area_query_ball cex_tree (peer_list_gen cex_tree 3)
        ⟨fun _ => 1/2, 1/10⟩ 4 3 = some res ∧
      res.Nodup ∧
      ∀ l, l ∈ res ↔ l < cex_tree.nboxes ∧
        cex_tree.box_has_children l = false ∧
        check_l_infty_ball_overlap cex_tree l (1/10) (fun _ => 1/2)
          = true := by
  exact C1_area_query_correct cex_wf
    (by intro a ha; norm_num [cex_tree])
    (by norm_num)
    (by decide)
    (by decide)
    ⟨3, by norm_num [level_to_rad, cex_tree], by norm_num⟩

/-- Witness for C2 at a concrete input: box 3 of `cex_tree`. -/
theorem C2_peer_list_membership_witness :
    (∀ p ∈ peer_list_gen cex_tree 3 3,
      is_adjacent_or_overlapping cex_tree.root_extent cex_tree.dim
        (cex_tree.box_centers 3) (cex_tree.box_levels 3)
        (cex_tree.box_centers p) (cex_tree.box_levels p) = true ∧
      cex_tree.box_levels p ≤ cex_tree.box_levels 3 ∧
      (∀ m < 2 ^ cex_tree.dim, cex_tree.box_child_ids m p ≠ 0 →
        ¬(is_adjacent_or_overlapping cex_tree.root_extent cex_tree.dim
            (cex_tree.box_centers 3) (cex_tree.box_levels 3)
            (cex_tree.box_centers (cex_tree.box_child_ids m p))
            (cex_tree.box_levels (cex_tree.box_child_ids m p)) = true ∧
          cex_tree.box_levels (cex_tree.box_child_ids m p) ≤
            cex_tree.box_levels 3))) ∧
    (∀ c, c < cex_tree.nboxes → cex_tree.box_has_children c = true →
      cex_tree.box_levels c < cex_tree.box_levels 3 →
      is_adjacent_or_overlapping cex_tree.root_extent cex_tree.dim
        (cex_tree.box_centers 3) (cex_tree.box_levels 3)
        (cex_tree.box_centers c) (cex_tree.box_levels c) = true →
      (c ∈ peer_list_gen cex_tree 3 3 ↔
        ∀ m < 2 ^ cex_tree.dim, cex_tree.box_child_ids m c ≠ 0 →
          ¬(is_adjacent_or_overlapping cex_tree.root_extent cex_tree.dim
              (cex_tree.box_centers 3) (cex_tree.box_levels 3)
              (cex_tree.box_centers (cex_tree.box_child_ids m c))
              (cex_tree.box_levels (cex_tree.box_child_ids m c))
                = true))) :=
  C2_peer_list_membership cex_wf (by decide) (by decide)

/-- Witness for C5 at a concrete input: `cex_tree` with a ball of radius
1/10 centered at 1/2. -/
theorem C5_guided_descent_stop_rule_witness :
    (level_to_rad cex_tree.root_extent 0 / 2 < (1/10 : ℚ) →
      ∀ fuel, find_guiding_box cex_tree (fun _ => 1/2) (1/10) fuel
        = some 0) ∧
    ((1/10 : ℚ) ≤ level_to_rad cex_tree.root_extent 0 / 2 →
      ∃ s, (∀ fuel, s < fuel →
          find_guiding_box cex_tree (fun _ => 1/2) (1/10) fuel =
            some (guiding_seq cex_tree (fun _ => 1/2) s)) ∧
        (∀ j ≤ s, in_box_half_open cex_tree
            (guiding_seq cex_tree (fun _ => 1/2) j) (fun _ => 1/2) ∧
          cex_tree.box_levels (guiding_seq cex_tree (fun _ => 1/2) j) = j) ∧
        guiding_stop cex_tree (1/10)
          (guiding_seq cex_tree (fun _ => 1/2) s) s ∧
        (∀ j < s, ¬guiding_stop cex_tree (1/10)
          (guiding_seq cex_tree (fun _ => 1/2) j) j) ∧
        (∀ L, (1/10 : ℚ) = level_to_rad cex_tree.root_extent L →
          (∀ j < L, cex_tree.box_has_children
            (guiding_seq cex_tree (fun _ => 1/2) j) = true) → s = L)) :=
  C5_guided_descent_stop_rule cex_wf
    (by intro a ha; norm_num [cex_tree]) (by norm_num)

/-- Witness for C10 at a concrete input: `cex_tree` with the outside-center
ball `cex_ball`. -/
theorem C10_guided_descent_terminates_witness :
    (∀ i, cex_tree.box_child_ids
        (level_morton_number cex_tree cex_ball.center i)
        (guiding_seq cex_tree cex_ball.center i) = 0 →
      guiding_seq cex_tree cex_ball.center (i + 1) = 0) ∧
    (level_to_rad cex_tree.root_extent 0 / 2 < cex_ball.radius →
      ∀ fuel, find_guiding_box cex_tree cex_ball.center cex_ball.radius fuel
        = some 0) ∧
    (cex_ball.radius ≤ level_to_rad cex_tree.root_extent 0 / 2 →
      ∃ s L, (∀ fuel, s < fuel →
          find_guiding_box cex_tree cex_ball.center cex_ball.radius fuel =
            some (guiding_seq cex_tree cex_ball.center s)) ∧
        (level_to_rad cex_tree.root_extent L / 2 < cex_ball.radius ∧
          cex_ball.radius ≤ level_to_rad cex_tree.root_extent L) ∧
        (∀ L2, level_to_rad cex_tree.root_extent L2 / 2 < cex_ball.radius →
          cex_ball.radius ≤ level_to_rad cex_tree.root_extent L2 → L2 = L) ∧
        s ≤ L ∧
        (s = L ∨ cex_tree.box_has_children
          (guiding_seq cex_tree cex_ball.center s) = false)) :=
  C10_guided_descent_terminates cex_tree cex_ball.center
    (by norm_num [cex_ball])

/-- `max_dist` of the `leaf_found_op` in `SPACE_INVADER_QUERY_TEMPLATE`:
starting from 0, fold `fmax` of `distance(ball_center.s_i, leaf_center.s_i)`
= `|ball_center[a] - leaf_center[a]|` over the axes. -/
def siq_max_dist (t : BoxTree) (bl : Ball) (leaf_box_id : ℕ) : ℚ :=
  (List.range t.dim).foldl
    (fun acc a => max acc |bl.center a - t.box_centers leaf_box_id a|) 0

/-- The `leaf_found_op` of `SPACE_INVADER_QUERY_TEMPLATE`: when
`max_dist ≤ LEVEL_TO_RAD(leaf_level) + ball_radius`, record an atomic-max
event for the leaf; exact-arithmetic model of
`atomic_max(&dists[leaf], as_int((float) max_dist))`. -/
def siq_leaf_found_op (t : BoxTree) (bl : Ball) (leaf_box_id : ℕ) :
    List (ℕ × ℚ) :=
  if siq_max_dist t bl leaf_box_id ≤
      level_to_rad t.root_extent (t.box_levels leaf_box_id) + bl.radius then
    [(leaf_box_id, siq_max_dist t bl leaf_box_id)]
  else []

/-- One ball's run of the space-invader query (the shared
`AREA_QUERY_WALKER_BODY` with `siq_leaf_found_op`), producing its emission
sequence of atomic-max events. -/
def space_invader_query_ball (t : BoxTree) (peers_of : ℕ → List ℕ)
    (bl : Ball) (gfuel wfuel : ℕ) : Option (List (ℕ × ℚ)) :=
  match find_guiding_box t bl.center bl.radius gfuel with
  | none => none
  | some guiding_box =>
    some (ball_walk t (siq_leaf_found_op t bl) (peers_of guiding_box) wfuel)

/-- All balls' events, in ball order (the kernel runs one work-item per
ball; the atomic-max reduction is order-independent). -/
def siq_all_events (t : BoxTree) (peers_of : ℕ → List ℕ)
    (gfuel wfuel : ℕ) : List Ball → Option (List (ℕ × ℚ))
  | [] => some []
  | bl :: rest =>
    match space_invader_query_ball t peers_of bl gfuel wfuel,
        siq_all_events t peers_of gfuel wfuel rest with
    | some ev, some evs => some (ev ++ evs)
    | _, _ => none

/-- The space-invader query: the reduction buffer
`outer_space_invader_dists` is initialized to `+0.0`
(`cl.array.zeros`), and each event applies max at its leaf index. -/
def space_invader_query (t : BoxTree) (peers_of : ℕ → List ℕ)
    (balls : List Ball) (gfuel wfuel : ℕ) : Option (ℕ → ℚ) :=
  match siq_all_events t peers_of gfuel wfuel balls with
  | none => none
  | some evs =>
    some fun l =>
      evs.foldl (fun acc e => if e.1 = l then max acc e.2 else acc) 0

theorem foldl_max_le_iff {α : Type} (f : α → ℚ) (B : ℚ) :
    ∀ (l : List α) (a : ℚ),
      l.foldl (fun acc x => max acc (f x)) a ≤ B ↔
        a ≤ B ∧ ∀ x ∈ l, f x ≤ B := by
  intro l
  induction l with
  | nil => simp
  | cons x xs ih =>
    intro a
    rw [List.foldl_cons, ih]
    rw [max_le_iff]
    constructor
    · intro ⟨⟨h1, h2⟩, h3⟩
      refine ⟨h1, ?_⟩
      intro y hy
      rcases List.mem_cons.mp hy with hy2 | hy2
      · exact hy2 ▸ h2
      · exact h3 y hy2
    · intro ⟨h1, h2⟩
      exact ⟨⟨h1, h2 x (List.mem_cons_self x xs)⟩,
        fun y hy => h2 y (List.mem_cons_of_mem x hy)⟩

theorem siq_test_iff {t : BoxTree} (hw : WF t) {bl : Ball}
    (hr : 0 < bl.radius) (l : ℕ) :
    (siq_max_dist t bl l ≤
        level_to_rad t.root_extent (t.box_levels l) + bl.radius) ↔
      check_l_infty_ball_overlap t l bl.radius bl.center = true := by
  rw [check_l_infty_ball_overlap_iff]
  unfold siq_max_dist
  rw [foldl_max_le_iff]
  have hB : (0:ℚ) ≤ level_to_rad t.root_extent (t.box_levels l) +
      bl.radius := by
    have := level_to_rad_pos hw.extent_pos (t.box_levels l)
    linarith
  constructor
  · intro ⟨_, h2⟩ a ha
    exact h2 a (List.mem_range.mpr ha)
  · intro h
    exact ⟨hB, fun a ha => h a (List.mem_range.mp ha)⟩

theorem siq_op_mem {t : BoxTree} {bl : Ball} {c : ℕ} {e : ℕ × ℚ} :
    e ∈ siq_leaf_found_op t bl c ↔
      e = (c, siq_max_dist t bl c) ∧
        siq_max_dist t bl c ≤
          level_to_rad t.root_extent (t.box_levels c) + bl.radius := by
  unfold siq_leaf_found_op
  by_cases h : siq_max_dist t bl c ≤
      level_to_rad t.root_extent (t.box_levels c) + bl.radius
  · rw [if_pos h]
    simp [h]
  · rw [if_neg h]
    simp [h]

theorem siq_ball_events_char {t : BoxTree} (hw : WF t) {bl : Ball}
    (hx : in_root_box t bl.center) (hr : 0 < bl.radius)
    {pfuel wfuel gfuel : ℕ} (hpf : t.nlevels ≤ pfuel)
    (hwf : t.nlevels ≤ wfuel)
    (hgf : ∃ L, level_to_rad t.root_extent L / 2 < bl.radius ∧ L < gfuel) :
    ∃ ev, space_invader_query_ball t (peer_list_gen t pfuel) bl gfuel wfuel
        = some ev ∧
      (∀ e ∈ ev, e.2 = siq_max_dist t bl e.1) ∧
      ∀ l, l < t.nboxes → t.box_has_children l = false →
        ((∃ d, (l, d) ∈ ev) ↔
          check_l_infty_ball_overlap t l bl.radius bl.center = true) := by
  obtain ⟨g, hfind, hval, hpw, hcover⟩ :=
    guiding_peers_cover hw hx hr hpf hgf
  refine ⟨ball_walk t (siq_leaf_found_op t bl) (peer_list_gen t pfuel g)
    wfuel, ?_, ?_, ?_⟩
  · unfold space_invader_query_ball
    rw [hfind]
  · intro e he
    obtain ⟨p, hp, c, hd, hfl, hop⟩ := ball_walk_mem_sound t _ _ _ e he
    obtain ⟨hec, _⟩ := siq_op_mem.mp hop
    rw [hec]
  · intro l hlt hfl
    constructor
    · intro ⟨d, hd⟩
      obtain ⟨p, hp, c, hdc, hflc, hop⟩ := ball_walk_mem_sound t _ _ _ _ hd
      obtain ⟨hec, htest⟩ := siq_op_mem.mp hop
      have hlc : l = c := congrArg Prod.fst hec
      subst hlc
      exact (siq_test_iff hw hr l).mp htest
    · intro hov
      have htest := (siq_test_iff hw hr l).mpr hov
      obtain ⟨p, hp, hdesc⟩ := hcover l hlt hfl hov
      refine ⟨siq_max_dist t bl l, ?_⟩
      apply ball_walk_mem_complete hw _ _ wfuel hp (hval p hp) hdesc hfl
        (siq_op_mem.mpr ⟨rfl, htest⟩)
      have h1 := hw.level_lt_nlevels l hlt
      omega

theorem foldl_key_max {l : ℕ} {D : ℚ} :
    ∀ (ev : List (ℕ × ℚ)), (∀ e ∈ ev, e.1 = l → e.2 = D) →
    ∀ acc : ℚ,
      ev.foldl (fun acc e => if e.1 = l then max acc e.2 else acc) acc =
        if ∃ e ∈ ev, e.1 = l then max acc D else acc := by
  intro ev
  induction ev with
  | nil =>
    intro _ acc
    rw [List.foldl_nil, if_neg]
    rintro ⟨e, he, _⟩
    exact absurd he (List.not_mem_nil e)
  | cons e es ih =>
    intro hval acc
    rw [List.foldl_cons]
    by_cases hel : e.1 = l
    · rw [if_pos hel]
      rw [hval e (List.mem_cons_self e es) hel]
      rw [ih (fun e2 he2 => hval e2 (List.mem_cons_of_mem e he2))]
      have hex : ∃ e2 ∈ e :: es, e2.1 = l :=
        ⟨e, List.mem_cons_self e es, hel⟩
      rw [if_pos hex]
      by_cases hex2 : ∃ e2 ∈ es, e2.1 = l
      · rw [if_pos hex2, max_assoc, max_self]
      · rw [if_neg hex2]
    · rw [if_neg hel]
      rw [ih (fun e2 he2 => hval e2 (List.mem_cons_of_mem e he2))]
      by_cases hex2 : ∃ e2 ∈ es, e2.1 = l
      · rw [if_pos hex2, if_pos]
        obtain ⟨e2, he2, he2l⟩ := hex2
        exact ⟨e2, List.mem_cons_of_mem e he2, he2l⟩
      · rw [if_neg hex2, if_neg]
        rintro ⟨e2, he2, he2l⟩
        rcases List.mem_cons.mp he2 with he3 | he3
        · exact hel (he3 ▸ he2l)
        · exact hex2 ⟨e2, he3, he2l⟩

/-- C3 (amended): space-invader correctness for balls whose centers lie in
the half-open root box.  For every well-formed tree and finite ball set
with positive radii and centers in the root box, after the space-invader
query each leaf `l` holds the maximum, over all balls passing the
grown-box test `max_a |c_i[a] - c_l[a]| ≤ level_to_rad(L(l)) + r_i`, of the
L∞ center-to-center distance — and 0 when no ball passes (the buffer is
initialized to +0.0).  The claim as frozen, quantified over arbitrary ball
centers, fails on the code; see the counterexample theorem. -/
theorem C3_space_invader_correct {t : BoxTree} (hw : WF t)
    {balls : List Ball} (hx : ∀ bl ∈ balls, in_root_box t bl.center)
    (hr : ∀ bl ∈ balls, 0 < bl.radius)
    {pfuel wfuel gfuel : ℕ} (hpf : t.nlevels ≤ pfuel)
    (hwf : t.nlevels ≤ wfuel)
    (hgf : ∀ bl ∈ balls, ∃ L,
      level_to_rad t.root_extent L / 2 < bl.radius ∧ L < gfuel) :
    ∃ f, space_invader_query t (peer_list_gen t pfuel) balls gfuel wfuel
        = some f ∧
      ∀ l, l < t.nboxes → t.box_has_children l = false →
        f l = (balls.map fun bl =>
          if siq_max_dist t bl l ≤
              level_to_rad t.root_extent (t.box_levels l) + bl.radius
          then siq_max_dist t bl l else 0).foldl max 0 := by
  suffices h : ∃ evs, siq_all_events t (peer_list_gen t pfuel) gfuel wfuel
      balls = some evs ∧
      ∀ l, l < t.nboxes → t.box_has_children l = false → ∀ acc : ℚ,
        0 ≤ acc →
        evs.foldl (fun acc e => if e.1 = l then max acc e.2 else acc) acc =
          (balls.map fun bl =>
            if siq_max_dist t bl l ≤
                level_to_rad t.root_extent (t.box_levels l) + bl.radius
            then siq_max_dist t bl l else 0).foldl max acc by
    obtain ⟨evs, he, hf⟩ := h
    refine ⟨fun l => evs.foldl
      (fun acc e => if e.1 = l then max acc e.2 else acc) 0, ?_, ?_⟩
    · unfold space_invader_query
      rw [he]
    · intro l h1 h2
      exact hf l h1 h2 0 le_rfl
  induction balls with
  | nil => exact ⟨[], rfl, fun l _ _ acc _ => rfl⟩
  | cons bl rest ih =>
    obtain ⟨ev, hev, hsound, hiff⟩ := siq_ball_events_char hw
      (hx bl (List.mem_cons_self bl rest)) (hr bl (List.mem_cons_self bl rest))
      hpf hwf (hgf bl (List.mem_cons_self bl rest))
    obtain ⟨evs, hevs, hfold⟩ := ih
      (fun b hb => hx b (List.mem_cons_of_mem bl hb))
      (fun b hb => hr b (List.mem_cons_of_mem bl hb))
      (fun b hb => hgf b (List.mem_cons_of_mem bl hb))
    refine ⟨ev ++ evs, ?_, ?_⟩
    · unfold siq_all_events
      rw [hev, hevs]
    · intro l h1 h2 acc hacc
      rw [List.foldl_append, List.map_cons, List.foldl_cons]
      rw [foldl_key_max ev
        (fun e he hel => by rw [hsound e he, hel]) acc]
      have hiffl := hiff l h1 h2
      by_cases hpass : check_l_infty_ball_overlap t l bl.radius bl.center
          = true
      · have hex : ∃ e ∈ ev, e.1 = l := by
          obtain ⟨d, hd⟩ := hiffl.mpr hpass
          exact ⟨(l, d), hd, rfl⟩
        rw [if_pos hex]
        have htest := (siq_test_iff hw
          (hr bl (List.mem_cons_self bl rest)) l).mpr hpass
        rw [if_pos htest]
        exact hfold l h1 h2 (max acc (siq_max_dist t bl l))
          (le_trans hacc (le_max_left _ _))
      · have hex : ¬∃ e ∈ ev, e.1 = l := by
          rintro ⟨e, he, hel⟩
          refine hpass (hiffl.mp ⟨e.2, ?_⟩)
          have : (l, e.2) = e := by
            rw [← hel]
          rw [this]
          exact he
        rw [if_neg hex]
        have htest : ¬(siq_max_dist t bl l ≤
            level_to_rad t.root_extent (t.box_levels l) + bl.radius) :=
          fun hc => hpass ((siq_test_iff hw
            (hr bl (List.mem_cons_self bl rest)) l).mp hc)
        rw [if_neg htest]
        rw [show max acc 0 = acc from max_eq_left hacc]
        exact hfold l h1 h2 acc hacc

set_option maxHeartbeats 4000000 in
theorem cex_siq_ball : space_invader_query_ball cex_tree
    (peer_list_gen cex_tree 3) cex_ball 3 3 = some [] := by
  unfold space_invader_query_ball
  rw [cex_find]
  show some (ball_walk cex_tree (siq_leaf_found_op cex_tree cex_ball)
    (peer_list_gen cex_tree 3 3) 3) = some []
  rw [cex_peers3]
  norm_num [ball_walk, walk_subtree, siq_leaf_found_op, siq_max_dist,
    level_to_rad, cex_tree, cex_ball, List.range_succ, List.flatMap,
    abs_of_nonneg, abs_of_nonpos]

theorem cex_siq_events : siq_all_events cex_tree (peer_list_gen cex_tree 3)
    3 3 [cex_ball] = some [] := by
  unfold siq_all_events
  rw [cex_siq_ball]
  rfl

/-- C3 counterexample: on the well-formed tree `cex_tree` with the single
outside-center ball `cex_ball`, the space-invader query leaves
`dist[6] = 0`, although the ball passes leaf 6's grown-box test with L∞
center distance 7/20 ≠ 0 — so `dist[6]` is not the maximum the claim
specifies. -/
theorem C3_counterexample :
    (space_invader_query cex_tree (peer_list_gen cex_tree 3) [cex_ball]
        3 3).map (fun f => f 6) = some 0 ∧
    siq_max_dist cex_tree cex_ball 6 = 7/20 ∧
    siq_max_dist cex_tree cex_ball 6 ≤
      level_to_rad cex_tree.root_extent (cex_tree.box_levels 6) +
        cex_ball.radius ∧
    (7/20 : ℚ) ≠ 0 ∧ cex_tree.box_has_children 6 = false ∧
    (0:ℚ) < cex_ball.radius ∧ WF cex_tree := by
  refine ⟨?_, ?_, ?_, by norm_num, rfl, by norm_num [cex_ball], cex_wf⟩
  · unfold space_invader_query
    rw [cex_siq_events]
    rfl
  · norm_num [siq_max_dist, cex_tree, cex_ball, List.range_succ,
      abs_of_nonneg, abs_of_nonpos]
  · norm_num [siq_max_dist, level_to_rad, cex_tree, cex_ball,
      List.range_succ, abs_of_nonneg, abs_of_nonpos]

/-- Witness for C3 at a concrete input: `cex_tree` with one inside ball. -/
theorem C3_space_invader_correct_witness :
    ∃ f, space_invader_query cex_tree (peer_list_gen cex_tree 3)
        [⟨fun _ => 1/2, 1/10⟩] 4 3 = some f ∧
      ∀ l, l < cex_tree.nboxes → cex_tree.box_has_children l = false →
        f l = (([⟨fun _ => 1/2, 1/10⟩] : List Ball).map fun bl =>
          if siq_max_dist cex_tree bl l ≤
              level_to_rad cex_tree.root_extent (cex_tree.box_levels l) +
                bl.radius
          then siq_max_dist cex_tree bl l else 0).foldl max 0 :=
  C3_space_invader_correct cex_wf
    (by
      intro bl hbl
      rw [List.mem_singleton] at hbl
      subst hbl
      intro a ha
      norm_num [cex_tree])
    (by
      intro bl hbl
      rw [List.mem_singleton] at hbl
      subst hbl
      norm_num)
    (by decide) (by decide)
    (by
      intro bl hbl
      rw [List.mem_singleton] at hbl
      subst hbl
      exact ⟨3, by norm_num [level_to_rad, cex_tree], by norm_num⟩)

/-- A one-box tree: the root, the interval [0,1], is the only box and a
leaf. -/
def cex1_tree : BoxTree where
  dim := 1
  nboxes := 1
  nlevels := 1
  root_extent := 1
  bbox_min := fun _ => 0
  box_centers := fun _ _ => 1/2
  box_levels := fun _ => 0
  box_has_children := fun _ => false
  box_child_ids := fun _ _ => 0

/-- A radius-0 ball centered at the center of the one-box tree's root. -/
def cex1_ball : Ball := ⟨fun _ => 1/2, 0⟩

theorem cex1_find : find_guiding_box cex1_tree cex1_ball.center
    cex1_ball.radius 1 = some 0 := by
  unfold find_guiding_box
  rw [if_pos (by norm_num [level_to_rad, cex1_tree, cex1_ball] :
    level_to_rad cex1_tree.root_extent 0 / 2 ≥ cex1_ball.radius)]
  rw [show (1:ℕ) = 0 + 1 from rfl, find_guiding_box_loop_unfold]
  rw [if_pos (by norm_num [guiding_stop, cex1_tree] :
    guiding_stop cex1_tree cex1_ball.radius 0 0)]

theorem cex1_aq : area_query_ball cex1_tree (peer_list_gen cex1_tree 1)
    cex1_ball 1 1 = some [0] := by
  unfold area_query_ball
  rw [cex1_find]
  show some (ball_walk cex1_tree (aq_leaf_found_op cex1_tree cex1_ball)
    (peer_list_gen cex1_tree 1 0) 1) = some [0]
  rw [root_peer_list]
  norm_num [ball_walk, aq_leaf_found_op, check_l_infty_ball_overlap,
    level_to_rad, cex1_tree, cex1_ball, List.range_succ, abs_of_nonneg,
    abs_of_nonpos, List.flatMap]

/-- C9 (amended): for a ball with non-positive radius, when the guiding-box
loop stops, the area query completes without error, but the leaf list need
not be empty: every emitted box is a leaf that passes the edge-inclusive
overlap test `max_a |c[a]-cb[a]| ≤ hb + r` — and for radius 0 with the
center at a leaf's center that test passes, so the leaf is emitted.  The
frozen claim's "empty leaf list" is refuted by the counterexample. -/
theorem C9_nonpositive_radius {t : BoxTree} {peers_of : ℕ → List ℕ}
    {bl : Ball} (hr : bl.radius ≤ 0) {gfuel wfuel : ℕ} {res : List ℕ}
    (h : area_query_ball t peers_of bl gfuel wfuel = some res) :
    ∀ l ∈ res, t.box_has_children l = false ∧
      check_l_infty_ball_overlap t l bl.radius bl.center = true := by
  intro l hl
  unfold area_query_ball at h
  cases hf : find_guiding_box t bl.center bl.radius gfuel with
  | none =>
    rw [hf] at h
    exact absurd h (by simp)
  | some g =>
    rw [hf] at h
    have h2 : ball_walk t (aq_leaf_found_op t bl) (peers_of g) wfuel
        = res := Option.some.inj h
    rw [← h2] at hl
    obtain ⟨p, hp, c, hd, hfl, hop⟩ := ball_walk_mem_sound t _ _ _ l hl
    obtain ⟨hlc, hov⟩ := aq_op_mem.mp hop
    subst hlc
    exact ⟨hfl, hov⟩

/-- C9 counterexample: a radius-0 ball centered at the root leaf's center
of the one-box tree yields the NON-empty leaf list [0] (and no crash), so
"radius ≤ 0 yields an empty leaf list" fails on the code. -/
theorem C9_counterexample :
    area_query_ball cex1_tree (peer_list_gen cex1_tree 1)
        cex1_ball 1 1 = some [0] ∧
    cex1_ball.radius ≤ 0 ∧
    some [0] ≠ some ([] : List ℕ) :=
  ⟨cex1_aq, by norm_num [cex1_ball], by simp⟩

/-- Witness for C9 at a concrete input: the one-box tree with the radius-0
ball. -/
theorem C9_nonpositive_radius_witness :
    cex1_tree.box_has_children 0 = false ∧
      check_l_infty_ball_overlap cex1_tree 0 cex1_ball.radius
        cex1_ball.center = true :=
  C9_nonpositive_radius (by norm_num [cex1_ball]) cex1_aq 0
    (List.mem_singleton.mpr rfl)

/-- Modelled from the spec: the exclusive-prefix-sum "starts" array of a
CSR list-of-lists ("Scan: exclusive prefix sum yields `starts[]` and the
total size"; the `ListOfListsBuilder` that computes it is external to this
source tree).  `csr_starts lists` has `lists.length + 1` entries; entry `i`
is the total length of the first `i` lists. -/
def csr_starts : List (List ℕ) → List ℕ
  | [] => [0]
  | l :: rest => 0 :: (csr_starts rest).map (l.length + ·)

/-- Modelled from the spec: `STARTS_EXPANDER_TEMPLATE` computes
`dst[i] = bsearch(starts, starts_len, i)`, which per the spec is the ball
id with `starts[ball_id] ≤ i < starts[ball_id+1]` (`InlineBinarySearch`
lives in `boxtree/tools.py`, outside this source tree).  For a monotone
starts array beginning at 0, that ball id equals the number of entries of
`starts` after the first that are `≤ i`. -/
def expand_starts (starts : List ℕ) (nkeys : ℕ) : List ℕ :=
  (List.range nkeys).map fun j => (starts.drop 1).countP fun s => decide (s ≤ j)

/-- Modelled from the spec: `pyopencl.algorithm.KeyValueSorter` sorts
`(key, value)` pairs stably by key and groups them into a CSR structure
indexed by `key ∈ [0, nkeys)`.  Group `b` is the value sequence of the
pairs with key `b`, in input order. -/
def kv_sort_groups (pairs : List (ℕ × ℕ)) (nkeys : ℕ) : List (List ℕ) :=
  (List.range nkeys).map fun b =>
    (pairs.filter fun p => decide (p.1 = b)).map Prod.snd

/-- Proof device: the `(leaf, ball_id)` pair sequence that
`aq.flatten.zip (expand_starts ...)` produces, built directly by recursion
with a running first ball id `k`. -/
def pair_seq (k : ℕ) : List (List ℕ) → List (ℕ × ℕ)
  | [] => []
  | l :: rest => (l.map fun x => (x, k)) ++ pair_seq (k + 1) rest

/-- Run `AreaQueryBuilder`'s kernel over a whole list of balls, collecting
each ball's emission segment (the list-of-lists view of
`leaves_near_ball_starts` / `leaves_near_ball_lists`). -/
def area_query_all (t : BoxTree) (peers_of : ℕ → List ℕ)
    (gfuel wfuel : ℕ) : List Ball → Option (List (List ℕ))
  | [] => some []
  | b :: rest =>
    match area_query_ball t peers_of b gfuel wfuel,
        area_query_all t peers_of gfuel wfuel rest with
    | some l, some ls => some (l :: ls)
    | _, _ => none

/-- `LeavesToBallsLookupBuilder.__call__`: run the area query over the
balls, expand its starts array into per-key ball ids, key-value-sort the
`(leaf box id, ball id)` pairs, and group into `balls_near_box_lists`
indexed by global box id over `[0, nboxes)` (`balls_near_box_starts` is
`csr_starts` of the result). -/
def leaves_to_balls_lookup (t : BoxTree) (peers_of : ℕ → List ℕ)
    (gfuel wfuel : ℕ) (balls : List Ball) : Option (List (List ℕ)) :=
  (area_query_all t peers_of gfuel wfuel balls).map fun aq =>
    kv_sort_groups
      (aq.flatten.zip (expand_starts (csr_starts aq) aq.flatten.length))
      t.nboxes

theorem countP_congr_mem (p q : ℕ → Bool) (l : List ℕ)
    (h : ∀ a ∈ l, p a = q a) : l.countP p = l.countP q := by
  induction l with
  | nil => rfl
  | cons x xs ih =>
    rw [List.countP_cons, List.countP_cons, h x (List.mem_cons_self x xs),
      ih (fun a ha => h a (List.mem_cons_of_mem x ha))]

theorem zip_replicate_map (l : List ℕ) (a : ℕ) :
    l.zip (List.replicate l.length a) = l.map fun x => (x, a) := by
  induction l with
  | nil => rfl
  | cons x xs ih => simp [List.replicate_succ, ih]

theorem csr_starts_cons_drop (lists : List (List ℕ)) :
    csr_starts lists = 0 :: (csr_starts lists).drop 1 := by
  cases lists <;> rfl

theorem csr_starts_length (lists : List (List ℕ)) :
    (csr_starts lists).length = lists.length + 1 := by
  induction lists with
  | nil => rfl
  | cons l rest ih => simp [csr_starts, ih]

theorem zip_expand (lists : List (List ℕ)) :
    ∀ k, lists.flatten.zip
        ((expand_starts (csr_starts lists) lists.flatten.length).map (· + k))
      = pair_seq k lists := by
  induction lists with
  | nil => intro k; rfl
  | cons L rest ih =>
    intro k
    have hflat : (L :: rest).flatten = L ++ rest.flatten := rfl
    have hlen : (L :: rest).flatten.length
        = L.length + rest.flatten.length := by
      rw [hflat, List.length_append]
    have hexp : (expand_starts (csr_starts (L :: rest))
          ((L :: rest).flatten.length)).map (· + k)
        = List.replicate L.length k
          ++ (expand_starts (csr_starts rest) rest.flatten.length).map
              (· + (k + 1)) := by
      unfold expand_starts
      rw [hlen, List.range_add, List.map_append, List.map_append]
      congr 1
      · rw [List.eq_replicate]
        constructor
        · simp
        · intro b hb
          rw [List.map_map, List.mem_map] at hb
          obtain ⟨j, hj, hbe⟩ := hb
          rw [List.mem_range] at hj
          have hz : ((csr_starts (L :: rest)).drop 1).countP
              (fun s => decide (s ≤ j)) = 0 := by
            rw [List.countP_eq_zero]
            intro s hs
            show ¬ (decide (s ≤ j) = true)
            simp only [decide_eq_true_eq]
            show ¬ s ≤ j
            have : s ∈ (csr_starts rest).map (L.length + ·) := hs
            rw [List.mem_map] at this
            obtain ⟨s0, _, hs0⟩ := this
            omega
          rw [← hbe]
          show ((csr_starts (L :: rest)).drop 1).countP
              (fun s => decide (s ≤ j)) + k = k
          rw [hz]
          omega
      · rw [List.map_map, List.map_map, List.map_map]
        apply List.map_congr_left
        intro j' hj'
        show ((csr_starts (L :: rest)).drop 1).countP
            (fun s => decide (s ≤ L.length + j')) + k
          = ((csr_starts rest).drop 1).countP (fun s => decide (s ≤ j'))
              + (k + 1)
        have h1 : ((csr_starts (L :: rest)).drop 1).countP
            (fun s => decide (s ≤ L.length + j'))
            = (csr_starts rest).countP (fun s => decide (s ≤ j')) := by
          show ((csr_starts rest).map (L.length + ·)).countP _ = _
          rw [List.countP_map]
          apply countP_congr_mem
          intro a _
          show decide (L.length + a ≤ L.length + j') = decide (a ≤ j')
          simp only [decide_eq_decide]
          omega
        have h2 : (csr_starts rest).countP (fun s => decide (s ≤ j'))
            = ((csr_starts rest).drop 1).countP (fun s => decide (s ≤ j'))
              + 1 := by
          conv_lhs => rw [csr_starts_cons_drop rest]
          rw [List.countP_cons_of_pos]
          simp
        rw [h1, h2]
        omega
    rw [hexp, hflat]
    rw [List.zip_append (by simp)]
    rw [zip_replicate_map, ih (k + 1)]
    rfl

theorem pair_seq_mem (lists : List (List ℕ)) :
    ∀ k l i, ((l, i) ∈ pair_seq k lists ↔
      ∃ j, i = k + j ∧ l ∈ lists.getD j []) := by
  induction lists with
  | nil =>
    intro k l i
    simp [pair_seq, List.getD]
  | cons L rest ih =>
    intro k l i
    unfold pair_seq
    rw [List.mem_append, List.mem_map, ih (k + 1)]
    constructor
    · rintro (⟨x, hx, hxe⟩ | ⟨j, hj, hmem⟩)
      · obtain ⟨he1, he2⟩ := Prod.mk.injEq .. ▸ hxe
        refine ⟨0, by omega, ?_⟩
        show l ∈ L
        rw [← he1]
        exact hx
      · exact ⟨j + 1, by omega, hmem⟩
    · rintro ⟨j, hi, hmem⟩
      cases j with
      | zero =>
        left
        refine ⟨l, hmem, ?_⟩
        rw [show i = k by omega]
      | succ j =>
        right
        exact ⟨j, by omega, hmem⟩

theorem pair_seq_snd_le (lists : List (List ℕ)) :
    ∀ k p, p ∈ pair_seq k lists → k ≤ p.2 := by
  induction lists with
  | nil => intro k p hp; cases hp
  | cons L rest ih =>
    intro k p hp
    rw [pair_seq, List.mem_append] at hp
    rcases hp with hp | hp
    · rw [List.mem_map] at hp
      obtain ⟨x, _, hxe⟩ := hp
      rw [← hxe]
    · exact le_trans (by omega) (ih (k + 1) p hp)

theorem pair_seq_pairwise (lists : List (List ℕ)) :
    ∀ k, List.Pairwise (fun p q : ℕ × ℕ => p.2 ≤ q.2) (pair_seq k lists) := by
  induction lists with
  | nil => intro k; exact List.Pairwise.nil
  | cons L rest ih =>
    intro k
    rw [pair_seq, List.pairwise_append]
    refine ⟨?_, ih (k + 1), ?_⟩
    · rw [List.pairwise_map]
      exact List.pairwise_of_forall (fun a b => le_refl k)
    · intro x hx y hy
      rw [List.mem_map] at hx
      obtain ⟨x0, _, hxe⟩ := hx
      have := pair_seq_snd_le rest (k + 1) y hy
      rw [← hxe]
      show k ≤ y.2
      omega

theorem kv_sort_groups_getD (pairs : List (ℕ × ℕ)) (n b : ℕ) (hb : b < n) :
    (kv_sort_groups pairs n).getD b [] =
      (pairs.filter fun p => decide (p.1 = b)).map Prod.snd := by
  unfold kv_sort_groups
  show ((((List.range n).map _).get? b).getD []) = _
  rw [List.get?_map, List.get?_range hb]
  rfl

theorem kv_sort_groups_getD_ge (pairs : List (ℕ × ℕ)) (n b : ℕ)
    (hb : n ≤ b) : (kv_sort_groups pairs n).getD b [] = [] := by
  unfold kv_sort_groups
  show ((((List.range n).map _).get? b).getD []) = _
  rw [List.get?_len_le (by simpa using hb)]
  rfl

theorem kv_sort_groups_length (pairs : List (ℕ × ℕ)) (n : ℕ) :
    (kv_sort_groups pairs n).length = n := by
  unfold kv_sort_groups
  simp

theorem kv_mem (pairs : List (ℕ × ℕ)) (n b i : ℕ) (hb : b < n) :
    (i ∈ (kv_sort_groups pairs n).getD b [] ↔ (b, i) ∈ pairs) := by
  rw [kv_sort_groups_getD pairs n b hb]
  rw [List.mem_map]
  constructor
  · rintro ⟨p, hp, hpe⟩
    rw [List.mem_filter] at hp
    obtain ⟨hp1, hp2⟩ := hp
    have : p = (b, i) := by
      rw [decide_eq_true_eq] at hp2
      rw [Prod.ext_iff]
      exact ⟨hp2, hpe⟩
    rw [← this]
    exact hp1
  · intro hp
    refine ⟨(b, i), ?_, rfl⟩
    rw [List.mem_filter]
    exact ⟨hp, by simp⟩

theorem getD_mem_of_mem (lists : List (List ℕ)) (i l : ℕ)
    (h : l ∈ lists.getD i []) : lists.getD i [] ∈ lists := by
  cases hg : lists.get? i with
  | none =>
    rw [show lists.getD i [] = (lists.get? i).getD [] from rfl, hg] at h
    cases h
  | some L =>
    rw [show lists.getD i [] = (lists.get? i).getD [] from rfl, hg]
    exact List.get?_mem hg

theorem area_query_ball_leaf {t : BoxTree} {peers_of : ℕ → List ℕ}
    {bl : Ball} {gfuel wfuel : ℕ} {res : List ℕ}
    (h : area_query_ball t peers_of bl gfuel wfuel = some res) :
    ∀ l ∈ res, t.box_has_children l = false := by
  intro l hl
  unfold area_query_ball at h
  cases hf : find_guiding_box t bl.center bl.radius gfuel with
  | none =>
    rw [hf] at h
    exact absurd h (by simp)
  | some g =>
    rw [hf] at h
    have h2 : ball_walk t (aq_leaf_found_op t bl) (peers_of g) wfuel
        = res := Option.some.inj h
    rw [← h2] at hl
    obtain ⟨p, hp, c, hd, hfl, hop⟩ := ball_walk_mem_sound t _ _ _ l hl
    obtain ⟨hlc, hov⟩ := aq_op_mem.mp hop
    subst hlc
    exact hfl

theorem area_query_all_sound {t : BoxTree} {peers_of : ℕ → List ℕ}
    {gfuel wfuel : ℕ} : ∀ {balls : List Ball} {aq : List (List ℕ)},
    area_query_all t peers_of gfuel wfuel balls = some aq →
    ∀ L ∈ aq, ∀ l ∈ L, t.box_has_children l = false := by
  intro balls
  induction balls with
  | nil =>
    intro aq h L hL l hl
    have haq : ([] : List (List ℕ)) = aq := Option.some.inj h
    rw [← haq] at hL
    cases hL
  | cons b rest ih =>
    intro aq h L hL l hl
    unfold area_query_all at h
    cases h1 : area_query_ball t peers_of b gfuel wfuel with
    | none =>
      rw [h1] at h
      exact absurd h (by simp)
    | some L0 =>
      rw [h1] at h
      cases h2 : area_query_all t peers_of gfuel wfuel rest with
      | none =>
        rw [h2] at h
        exact absurd h (by simp)
      | some rest_aq =>
        rw [h2] at h
        have h3 : L0 :: rest_aq = aq := Option.some.inj h
        rw [← h3] at hL
        rcases List.mem_cons.mp hL with hL4 | hL4
        · rw [hL4] at hl
          exact area_query_ball_leaf h1 l hl
        · exact ih h2 L hL4 l hl

/-- C4: LBL is the transpose of the area query.  With `aq` the per-ball
area-query lists and `lbl` the leaves-to-balls lookup the builder derives
from them, ball `i`'s list contains leaf `l` iff box `l`'s group contains
ball `i`; within each box's group the ball ids appear in sorted
(nondecreasing) order; only leaves have non-empty groups; and the starts
array `csr_starts lbl` is indexed by global box id over `[0, nboxes]`,
having `nboxes + 1` entries. -/
theorem C4_lbl_transpose {t : BoxTree} {peers_of : ℕ → List ℕ}
    {balls : List Ball} {gfuel wfuel : ℕ} {aq lbl : List (List ℕ)}
    (haq : area_query_all t peers_of gfuel wfuel balls = some aq)
    (hlbl : leaves_to_balls_lookup t peers_of gfuel wfuel balls = some lbl)
    (hbnd : ∀ L ∈ aq, ∀ l ∈ L, l < t.nboxes) :
    (∀ i l, l ∈ aq.getD i [] ↔ i ∈ lbl.getD l []) ∧
    (∀ l, List.Pairwise (fun a b => a ≤ b) (lbl.getD l [])) ∧
    (∀ l, lbl.getD l [] ≠ [] → t.box_has_children l = false) ∧
    (csr_starts lbl).length = t.nboxes + 1 := by
  have hzip : aq.flatten.zip
      (expand_starts (csr_starts aq) aq.flatten.length) = pair_seq 0 aq := by
    have hmap : (expand_starts (csr_starts aq) aq.flatten.length).map (· + 0)
        = expand_starts (csr_starts aq) aq.flatten.length := by
      simp
    have := zip_expand aq 0
    rw [hmap] at this
    exact this
  have hlbl2 : lbl = kv_sort_groups (pair_seq 0 aq) t.nboxes := by
    unfold leaves_to_balls_lookup at hlbl
    rw [haq] at hlbl
    have h4 : kv_sort_groups
        (aq.flatten.zip (expand_starts (csr_starts aq) aq.flatten.length))
        t.nboxes = lbl := Option.some.inj hlbl
    rw [← h4, hzip]
  refine ⟨?_, ?_, ?_, ?_⟩
  · intro i l
    rw [hlbl2]
    constructor
    · intro h
      have hlt : l < t.nboxes :=
        hbnd _ (getD_mem_of_mem aq i l h) l h
      rw [kv_mem _ _ _ _ hlt, pair_seq_mem]
      exact ⟨i, by omega, h⟩
    · intro h
      by_cases hlt : l < t.nboxes
      · rw [kv_mem _ _ _ _ hlt, pair_seq_mem] at h
        obtain ⟨j, hij, hmem⟩ := h
        rw [show i = j by omega]
        exact hmem
      · rw [kv_sort_groups_getD_ge _ _ _ (le_of_not_lt hlt)] at h
        cases h
  · intro l
    rw [hlbl2]
    by_cases hlt : l < t.nboxes
    · rw [kv_sort_groups_getD _ _ _ hlt]
      rw [List.pairwise_map]
      exact (pair_seq_pairwise aq 0).filter _
    · rw [kv_sort_groups_getD_ge _ _ _ (le_of_not_lt hlt)]
      exact List.Pairwise.nil
  · intro l hne
    rw [hlbl2] at hne
    by_cases hlt : l < t.nboxes
    · rw [kv_sort_groups_getD _ _ _ hlt] at hne
      obtain ⟨i, hi⟩ := List.exists_mem_of_ne_nil _ hne
      have hpair : (l, i) ∈ pair_seq 0 aq := by
        rw [← kv_mem (pair_seq 0 aq) t.nboxes l i hlt,
          kv_sort_groups_getD _ _ _ hlt]
        exact hi
      rw [pair_seq_mem] at hpair
      obtain ⟨j, _, hmem⟩ := hpair
      exact area_query_all_sound haq _ (getD_mem_of_mem aq j l hmem) l hmem
    · rw [kv_sort_groups_getD_ge _ _ _ (le_of_not_lt hlt)] at hne
      exact absurd rfl hne
  · rw [hlbl2, csr_starts_length, kv_sort_groups_length]

theorem cex1_aqall : area_query_all cex1_tree (peer_list_gen cex1_tree 1)
    1 1 [cex1_ball] = some [[0]] := by
  unfold area_query_all
  rw [cex1_aq]
  rfl

theorem cex1_lbl : leaves_to_balls_lookup cex1_tree
    (peer_list_gen cex1_tree 1) 1 1 [cex1_ball] = some [[0]] := by
  unfold leaves_to_balls_lookup
  rw [cex1_aqall]
  rfl

/-- Witness for C4 at a concrete input: the one-box tree with one ball. -/
theorem C4_lbl_transpose_witness :
    (∀ i l, l ∈ ([[0]] : List (List ℕ)).getD i [] ↔
        i ∈ ([[0]] : List (List ℕ)).getD l []) ∧
    (∀ l, List.Pairwise (fun a b => a ≤ b)
        (([[0]] : List (List ℕ)).getD l [])) ∧
    (∀ l, ([[0]] : List (List ℕ)).getD l [] ≠ [] →
        cex1_tree.box_has_children l = false) ∧
    (csr_starts [[0]]).length = cex1_tree.nboxes + 1 :=
  C4_lbl_transpose cex1_aqall cex1_lbl (by decide)

/-- Modelled from the spec: the value denoted by a non-negative IEEE-754
binary32 bit pattern `b`, scaled by `2^149` so it stays a natural number.
A subnormal pattern (exponent field 0) denotes `mantissa / 2^149`; a
pattern with exponent field `e ≥ 1` denotes
`(2^23 + mantissa) * 2^(e-1) / 2^149`.  The space-invader kernel's
`atomic_max` compares such patterns with `as_int((float) max_dist)`. -/
def float32_scaled_val (b : ℕ) : ℕ :=
  if b < 2 ^ 23 then b
  else (2 ^ 23 + b % 2 ^ 23) * 2 ^ (b / 2 ^ 23 - 1)

/-- The rational value denoted by the non-negative float32 bit pattern
`b`. -/
def float32_val (b : ℕ) : ℚ :=
  (float32_scaled_val b : ℚ) / 2 ^ 149

theorem float32_scaled_val_lt_succ (b : ℕ) :
    float32_scaled_val b < float32_scaled_val (b + 1) := by
  have h23 : (2:ℕ) ^ 23 = 8388608 := by norm_num
  unfold float32_scaled_val
  by_cases h1 : b + 1 < 2 ^ 23
  · rw [if_pos (by omega : b < 2 ^ 23), if_pos h1]
    omega
  by_cases h2 : b < 2 ^ 23
  · rw [if_pos h2, if_neg h1]
    have he : (b + 1) / 2 ^ 23 = 1 := by
      simp only [h23] at h1 h2 ⊢
      omega
    have hm : (b + 1) % 2 ^ 23 = 0 := by
      simp only [h23] at h1 h2 ⊢
      omega
    rw [he, hm]
    simp only [h23] at h2 ⊢
    norm_num
    omega
  · rw [if_neg h2, if_neg h1]
    by_cases h3 : b % 2 ^ 23 + 1 < 2 ^ 23
    · have hd : (b + 1) / 2 ^ 23 = b / 2 ^ 23 := by
        simp only [h23] at h3 ⊢
        omega
      have hm : (b + 1) % 2 ^ 23 = b % 2 ^ 23 + 1 := by
        simp only [h23] at h3 ⊢
        omega
      rw [hd, hm]
      exact Nat.mul_lt_mul_of_lt_of_le (by omega) (le_refl _) (by positivity)
    · have hm0 : b % 2 ^ 23 = 2 ^ 23 - 1 := by
        simp only [h23] at h3 ⊢
        omega
      have hd : (b + 1) / 2 ^ 23 = b / 2 ^ 23 + 1 := by
        simp only [h23] at h3 hm0 ⊢
        omega
      have hm : (b + 1) % 2 ^ 23 = 0 := by
        simp only [h23] at h3 hm0 ⊢
        omega
      have he1 : 1 ≤ b / 2 ^ 23 := by
        simp only [h23] at h2 ⊢
        omega
      rw [hd, hm, hm0]
      have hstep : (2:ℕ) ^ (b / 2 ^ 23 + 1 - 1)
          = 2 ^ (b / 2 ^ 23 - 1) * 2 := by
        rw [show b / 2 ^ 23 + 1 - 1 = b / 2 ^ 23 - 1 + 1 by omega, pow_succ]
      rw [hstep]
      calc (2 ^ 23 + (2 ^ 23 - 1)) * 2 ^ (b / 2 ^ 23 - 1)
          < (2 ^ 23 + 2 ^ 23) * 2 ^ (b / 2 ^ 23 - 1) := by
            apply Nat.mul_lt_mul_of_lt_of_le (by omega) (le_refl _)
              (by positivity)
        _ = (2 ^ 23 + 0) * (2 ^ (b / 2 ^ 23 - 1) * 2) := by ring

theorem float32_scaled_val_mono : StrictMono float32_scaled_val :=
  strictMono_nat_of_lt_succ float32_scaled_val_lt_succ

theorem float32_val_le_iff (b1 b2 : ℕ) :
    float32_val b1 ≤ float32_val b2 ↔ b1 ≤ b2 := by
  unfold float32_val
  rw [div_le_div_iff_of_pos_right (by norm_num : (0:ℚ) < 2 ^ 149)]
  rw [Nat.cast_le]
  exact float32_scaled_val_mono.le_iff_le

theorem float32_val_monotone : Monotone float32_val := fun x y hxy =>
  (float32_val_le_iff x y).mpr hxy

theorem float32_val_foldl_max (bits : List ℕ) :
    ∀ b0, float32_val (bits.foldl max b0)
      = (bits.map float32_val).foldl max (float32_val b0) := by
  induction bits with
  | nil => intro b0; rfl
  | cons x xs ih =>
    intro b0
    rw [List.foldl_cons, List.map_cons, List.foldl_cons, ih,
      float32_val_monotone.map_max]

/-- C7: atomic-max bit reinterpretation.  For bit patterns of non-negative
finite IEEE-754 float32 values (patterns below `0x7f800000`), comparing
the patterns as integers agrees with comparing the denoted values, the
integer max denotes the floating-point max, and the folded integer
maximum the space-invader kernel accumulates by repeated `atomic_max`
denotes the floating-point maximum of the denoted values. -/
theorem C7_bit_order (b1 b2 : ℕ) (h1 : b1 < 0x7f800000)
    (h2 : b2 < 0x7f800000) :
    (b1 ≤ b2 ↔ float32_val b1 ≤ float32_val b2) ∧
    float32_val (max b1 b2) = max (float32_val b1) (float32_val b2) ∧
    ∀ (bits : List ℕ) (b0 : ℕ),
      float32_val (bits.foldl max b0)
        = (bits.map float32_val).foldl max (float32_val b0) :=
  ⟨(float32_val_le_iff b1 b2).symm, float32_val_monotone.map_max,
    fun bits b0 => float32_val_foldl_max bits b0⟩

/-- Witness for C7 at concrete bit patterns 1 and 2 (two subnormals). -/
theorem C7_bit_order_witness :
    ((1:ℕ) ≤ 2 ↔ float32_val 1 ≤ float32_val 2) ∧
    float32_val (max 1 2) = max (float32_val 1) (float32_val 2) ∧
    ∀ (bits : List ℕ) (b0 : ℕ),
      float32_val (bits.foldl max b0)
        = (bits.map float32_val).foldl max (float32_val b0) :=
  C7_bit_order 1 2 (by norm_num) (by norm_num)

/-- Modelled from the spec: NumPy dtypes as far as the builders compare
them (`tree.coord_dtype` against the ball arrays' dtypes). -/
inductive Dtype
  | float32
  | float64
  | other
  deriving DecidableEq

/-- `AreaQueryBuilder.__call__`'s input validation, in source order: the
`ball_centers` dtype against `tree.coord_dtype` (TypeError), the
`ball_radii` dtype (TypeError), then — with peer lists built internally
when none are supplied — the length check
`len(peer_lists.peer_list_starts) != tree.nboxes + 1` (ValueError).  A
supplied peer list is abstracted by its `peer_list_starts` length; `none`
means the builder constructs its own, whose starts array has `nboxes + 1`
entries by construction. -/
def area_query_validate (coord_dtype centers_dtype radii_dtype : Dtype)
    (nboxes : ℕ) (peer_starts_len : Option ℕ) : Except String Unit :=
  if centers_dtype ≠ coord_dtype then
    Except.error "ball_centers dtype must match tree.coord_dtype"
  else if radii_dtype ≠ coord_dtype then
    Except.error "ball_radii dtype must match tree.coord_dtype"
  else
    match peer_starts_len with
    | none => Except.ok ()
    | some len =>
      if len ≠ nboxes + 1 then
        Except.error "size of peer lists must match with number of boxes"
      else Except.ok ()

/-- `SpaceInvaderQueryBuilder.__call__`'s input validation: identical
checks in the same order as the area-query builder. -/
def space_invader_query_validate
    (coord_dtype centers_dtype radii_dtype : Dtype)
    (nboxes : ℕ) (peer_starts_len : Option ℕ) : Except String Unit :=
  if centers_dtype ≠ coord_dtype then
    Except.error "ball_centers dtype must match tree.coord_dtype"
  else if radii_dtype ≠ coord_dtype then
    Except.error "ball_radii dtype must match tree.coord_dtype"
  else
    match peer_starts_len with
    | none => Except.ok ()
    | some len =>
      if len ≠ nboxes + 1 then
        Except.error "size of peer lists must match with number of boxes"
      else Except.ok ()

/-- `LeavesToBallsLookupBuilder.__call__`'s input validation: its own two
dtype checks, then delegation to `AreaQueryBuilder.__call__` (which
re-checks the dtypes and checks the peer-list length). -/
def leaves_to_balls_validate (coord_dtype centers_dtype radii_dtype : Dtype)
    (nboxes : ℕ) (peer_starts_len : Option ℕ) : Except String Unit :=
  if centers_dtype ≠ coord_dtype then
    Except.error "ball_centers dtype must match tree.coord_dtype"
  else if radii_dtype ≠ coord_dtype then
    Except.error "ball_radii dtype must match tree.coord_dtype"
  else
    area_query_validate coord_dtype centers_dtype radii_dtype nboxes
      peer_starts_len

theorem area_query_validate_error (coord centers radii : Dtype) (nboxes : ℕ)
    (psl : Option ℕ)
    (h : centers ≠ coord ∨ radii ≠ coord ∨
      ∃ len, psl = some len ∧ len ≠ nboxes + 1) :
    (area_query_validate coord centers radii nboxes psl).isOk = false := by
  unfold area_query_validate
  by_cases hc : centers = coord
  · rw [if_neg (fun hne => hne hc)]
    by_cases hr : radii = coord
    · rw [if_neg (fun hne => hne hr)]
      rcases h with h | h | ⟨len, hpsl, hlen⟩
      · exact absurd hc h
      · exact absurd hr h
      · rw [hpsl]
        show (if len ≠ nboxes + 1 then
          (Except.error "size of peer lists must match with number of boxes"
            : Except String Unit)
          else Except.ok ()).isOk = false
        rw [if_pos hlen]
        rfl
    · rw [if_pos hr]
      rfl
  · rw [if_pos hc]
    rfl

/-- C8: precondition failures are reported before work.  If the ball
centers' or radii's dtype differs from the tree's coordinate dtype, or a
supplied `peer_list_starts` has length different from `nboxes + 1`, then
each of the three builders raises (its validation yields an error, not an
`ok` result). -/
theorem C8_precondition_errors (coord centers radii : Dtype) (nboxes : ℕ)
    (psl : Option ℕ)
    (h : centers ≠ coord ∨ radii ≠ coord ∨
      ∃ len, psl = some len ∧ len ≠ nboxes + 1) :
    (area_query_validate coord centers radii nboxes psl).isOk = false ∧
    (leaves_to_balls_validate coord centers radii nboxes psl).isOk = false ∧
    (space_invader_query_validate coord centers radii nboxes psl).isOk
      = false := by
  refine ⟨area_query_validate_error coord centers radii nboxes psl h, ?_, ?_⟩
  · unfold leaves_to_balls_validate
    by_cases hc : centers = coord
    · rw [if_neg (fun hne => hne hc)]
      by_cases hr : radii = coord
      · rw [if_neg (fun hne => hne hr)]
        exact area_query_validate_error coord centers radii nboxes psl h
      · rw [if_pos hr]
        rfl
    · rw [if_pos hc]
      rfl
  · show (area_query_validate coord centers radii nboxes psl).isOk = false
    exact area_query_validate_error coord centers radii nboxes psl h

/-- Witness for C8 at a concrete input: a float32 centers array against a
float64 tree, with a wrong-sized peer list as well. -/
theorem C8_precondition_errors_witness :
    (area_query_validate Dtype.float64 Dtype.float32 Dtype.float64 5
        (some 7)).isOk = false ∧
    (leaves_to_balls_validate Dtype.float64 Dtype.float32 Dtype.float64 5
        (some 7)).isOk = false ∧
    (space_invader_query_validate Dtype.float64 Dtype.float32 Dtype.float64 5
        (some 7)).isOk = false :=
  C8_precondition_errors Dtype.float64 Dtype.float32 Dtype.float64 5
    (some 7) (Or.inl (by decide))
